import Mathlib

/-!
Verification of the caching subsystem of the `openai-mcp-server` repository.

The development shallowly embeds, in Lean 4:

* the JSON-like parameter values handled by the cache key generators
  (`src/cache/cache-key-generator.ts`), together with JavaScript's
  `JSON.stringify` on them and the recursive key-sorting performed by
  `CacheKeyGenerator.sortObject`;
* the in-memory entry store with LRU/LFU/FIFO eviction
  (`src/cache/in-memory-cache.ts`);
* the cache facade (`src/cache/cache-service.ts`).

Modelling conventions, stated once:

* JavaScript numbers are modelled as integers (`Int`); the properties proved
  do not depend on fractional formatting.
* A self-referential ("circular") object — a value on which the key
  generator's `sortObject`/`JSON.stringify` pipeline throws — is modelled by
  the leaf constructor `JValue.cyclic`.  The throw is surfaced by
  `JSONstringify` returning `Except.error`, matching the observable behaviour
  (an exception escaping `generateKey`).
* The SHA-256 digest is modelled as an injective function of the canonical
  string (here: the identity).  The spec's own guarantee is stated "with
  overwhelming probability"; collision-freedom is exactly the property the
  digest is assumed to contribute, and the claims under verification only
  compare keys for equality.
* `JSON.stringify` escapes the quote and backslash characters; other escape
  sequences produced by the real implementation (control characters) are
  immaterial to every property proved and are not modelled.
* Property access on a non-object message (`msg.role` on a primitive) yields
  `undefined` in JavaScript and the resulting `undefined`-valued properties
  are dropped by `JSON.stringify`; `normalizeMessage` on a non-object
  therefore produces the empty object.
* `Date.now()` is an explicit `now : Nat` argument to every operation.
-/

/-! ## JSON-like values

`JValue`/`JList`/`JObj` are mutually inductive so that structural recursion
and induction over nested arrays and objects stay elementary.  An object is
an insertion-ordered association list, mirroring JavaScript property order. -/

mutual

inductive JValue : Type
  | null : JValue
  | bool (b : Bool) : JValue
  | num (n : Int) : JValue
  | str (s : String) : JValue
  | arr (l : JList) : JValue
  | obj (o : JObj) : JValue
  | cyclic : JValue

inductive JList : Type
  | nil : JList
  | cons (v : JValue) (t : JList) : JList

inductive JObj : Type
  | nil : JObj
  | cons (k : String) (v : JValue) (t : JObj) : JObj

end

deriving instance DecidableEq for JValue, JList, JObj

/-- First binding of key `k` in an object, i.e. JavaScript property lookup. -/
def getF : JObj → String → Option JValue
  | .nil, _ => none
  | .cons k' v t, k => if k' = k then some v else getF t k

/-- Is key `k` bound in the object? -/
def keyMem (k : String) : JObj → Bool
  | .nil => false
  | .cons k' _ t => k' == k || keyMem k t

/-- JavaScript `delete o[k]`: removes the binding of `k` (objects have unique
keys; on the model's association lists every binding of `k` is removed). -/
def deleteF (k : String) : JObj → JObj
  | .nil => .nil
  | .cons k' v t => if k' = k then deleteF k t else .cons k' v (deleteF k t)

/-- Replace the value bound to `k`, keeping its position. -/
def replaceF (k : String) (w : JValue) : JObj → JObj
  | .nil => .nil
  | .cons k' v t => if k' = k then .cons k' w (replaceF k w t) else .cons k' v (replaceF k w t)

/-- Append a binding at the end of the object. -/
def snocO : JObj → String → JValue → JObj
  | .nil, k, w => .cons k w .nil
  | .cons k' v t, k, w => .cons k' v (snocO t k w)

/-- JavaScript assignment `o[k] = w`: in-place update when `k` is bound,
append otherwise. -/
def setField (k : String) (w : JValue) (o : JObj) : JObj :=
  if keyMem k o then replaceF k w o else snocO o k w

/-- JavaScript truthiness of a value. -/
def truthy : JValue → Bool
  | .null => false
  | .bool b => b
  | .num n => n != 0
  | .str s => s != ""
  | .arr _ => true
  | .obj _ => true
  | .cyclic => true

mutual

/-- Does the value contain a circular substructure? -/
def hasCycV : JValue → Bool
  | .null | .bool _ | .num _ | .str _ => false
  | .arr l => hasCycL l
  | .obj o => hasCycO o
  | .cyclic => true

/-- Does some element contain a circular substructure? -/
def hasCycL : JList → Bool
  | .nil => false
  | .cons v t => hasCycV v || hasCycL t

/-- Does some bound value contain a circular substructure? -/
def hasCycO : JObj → Bool
  | .nil => false
  | .cons _ v t => hasCycV v || hasCycO t

end

mutual

/-- Structural size of a value, used as parser fuel. -/
def sizeV : JValue → Nat
  | .null | .bool _ | .num _ | .str _ | .cyclic => 1
  | .arr l => 1 + sizeL l
  | .obj o => 1 + sizeO o

/-- Structural size of an array body. -/
def sizeL : JList → Nat
  | .nil => 1
  | .cons v t => 1 + sizeV v + sizeL t

/-- Structural size of an object body. -/
def sizeO : JObj → Nat
  | .nil => 1
  | .cons _ v t => 1 + sizeV v + sizeO t

end

/-! ## `JSON.stringify` -/

/-- The decimal digit character for `d < 10`. -/
def digitChar (d : Nat) : Char := Char.ofNat (48 + d)

/-- Decimal digits, structurally recursive on a fuel bound so that the
kernel can evaluate it (`fuel > n` suffices). -/
def natCharsAux : Nat → Nat → List Char
  | 0, _ => []
  | fuel + 1, n =>
    if n < 10 then [digitChar n] else natCharsAux fuel (n / 10) ++ [digitChar (n % 10)]

/-- Decimal digits of a natural number, most significant first. -/
def natChars (n : Nat) : List Char := natCharsAux (n + 1) n

theorem natCharsAux_congr :
    ∀ fuel₁ fuel₂ n, n < fuel₁ → n < fuel₂ → natCharsAux fuel₁ n = natCharsAux fuel₂ n := by
  intro fuel₁
  induction fuel₁ with
  | zero => intro fuel₂ n h; omega
  | succ f ih =>
    intro fuel₂ n h1 h2
    cases fuel₂ with
    | zero => omega
    | succ g =>
      simp only [natCharsAux]
      split

      · rfl
      · next hn =>
        rw [ih g (n / 10) (by omega) (by omega)]

/-- The defining recurrence of `natChars`. -/
theorem natChars_eq (n : Nat) :
    natChars n = if n < 10 then [digitChar n] else natChars (n / 10) ++ [digitChar (n % 10)] := by
  show natCharsAux (n + 1) n = _
  simp only [natCharsAux]
  split
  · rfl
  · next hn =>
    rw [natCharsAux_congr n (n / 10 + 1) (n / 10) (by omega) (by omega)]
    rfl

/-- Decimal rendering of an integer. -/
def intChars (n : Int) : List Char :=
  if n < 0 then '-' :: natChars n.natAbs else natChars n.toNat

/-- JSON string escaping of one character (quote and backslash). -/
def escChar (c : Char) : List Char :=
  if c = '"' ∨ c = '\\' then ['\\', c] else [c]

/-- JSON string escaping of a character sequence. -/
def escChars : List Char → List Char
  | [] => []
  | c :: cs => escChar c ++ escChars cs

mutual

/-- Characters of `JSON.stringify` applied to a value.  `cyclic` is given a
dummy rendering: `JSONstringify` rejects any value containing it before this
function's output is used. -/
def strV : JValue → List Char
  | .null => 'n' :: ['u', 'l', 'l']
  | .bool true => 't' :: ['r', 'u', 'e']
  | .bool false => 'f' :: ['a', 'l', 's', 'e']
  | .num n => intChars n
  | .str s => '"' :: (escChars s.data ++ ['"'])
  | .arr .nil => ['[', ']']
  | .arr (.cons v t) => '[' :: (strV v ++ strItems t)
  | .obj .nil => ['{', '}']
  | .obj (.cons k v t) =>
      '{' :: (('"' :: (escChars k.data ++ ('"' :: (':' :: strV v)))) ++ strPairs t)
  | .cyclic => []

/-- Rendering of the remaining array elements, starting at the separator. -/
def strItems : JList → List Char
  | .nil => [']']
  | .cons v t => ',' :: (strV v ++ strItems t)

/-- Rendering of the remaining object properties, starting at the separator. -/
def strPairs : JObj → List Char
  | .nil => ['}']
  | .cons k v t =>
      ',' :: (('"' :: (escChars k.data ++ ('"' :: (':' :: strV v)))) ++ strPairs t)

end

/-- Rendering of one `"key":value` property. -/
def strPairKV (k : String) (v : JValue) : List Char :=
  '"' :: (escChars k.data ++ ('"' :: (':' :: strV v)))

theorem strV_obj_cons (k : String) (v : JValue) (t : JObj) :
    strV (.obj (.cons k v t)) = '{' :: (strPairKV k v ++ strPairs t) := rfl

theorem strPairs_cons (k : String) (v : JValue) (t : JObj) :
    strPairs (.cons k v t) = ',' :: (strPairKV k v ++ strPairs t) := rfl

/-- Model of `JSON.stringify` as used by the key generator: throws (models: returns
`Except.error`) on a circular structure, otherwise yields the rendered
string.  In the source the throw actually happens while `sortObject` (or
`JSON.stringify` itself) walks the circular value; either way the exception
escapes `generateKey`, which is the observable modelled here. -/
def JSONstringify (v : JValue) : Except String String :=
  if hasCycV v then .error "Converting circular structure to JSON"
  else .ok (String.mk (strV v))

/-! ## A reference parser for the rendered JSON

The parser exists only to prove that `strV` is injective on cycle-free
values (every accepted rendering parses back to the value it came from).
Recursion is by explicit fuel, so totality is immediate. -/

/-- Parse the body of a JSON string after the opening quote, undoing
`escChars`; returns the raw characters and the input after the closing
quote. -/
def parseStrAux : List Char → Option (List Char × List Char)
  | [] => none
  | c :: cs =>
    if c = '"' then some ([], cs)
    else if c = '\\' then
      match cs with
      | [] => none
      | c' :: cs' =>
        match parseStrAux cs' with
        | some (s, r) => some (c' :: s, r)
        | none => none
    else
      match parseStrAux cs with
      | some (s, r) => some (c :: s, r)
      | none => none
  termination_by cs => cs.length
  decreasing_by all_goals simp +arith

/-- Split the longest prefix of decimal digits off the input. -/
def takeDigits : List Char → List Char × List Char
  | [] => ([], [])
  | c :: cs =>
    if c.isDigit then
      let (ds, r) := takeDigits cs
      (c :: ds, r)
    else ([], c :: cs)

/-- Value of a digit string under a left accumulator. -/
def digitsToNat (acc : Nat) : List Char → Nat
  | [] => acc
  | c :: cs => digitsToNat (acc * 10 + (c.toNat - 48)) cs

mutual

/-- Parse one JSON value off the front of the input. -/
def parseV : Nat → List Char → Option (JValue × List Char)
  | 0, _ => none
  | _ + 1, [] => none
  | fuel + 1, c :: cs =>
    if c = 'n' then
      match cs with
      | 'u' :: 'l' :: 'l' :: r => some (.null, r)
      | _ => none
    else if c = 't' then
      match cs with
      | 'r' :: 'u' :: 'e' :: r => some (.bool true, r)
      | _ => none
    else if c = 'f' then
      match cs with
      | 'a' :: 'l' :: 's' :: 'e' :: r => some (.bool false, r)
      | _ => none
    else if c = '"' then
      match parseStrAux cs with
      | some (s, r) => some (.str (String.mk s), r)
      | none => none
    else if c = '[' then
      match cs with
      | [] => none
      | c' :: cs' =>
        if c' = ']' then some (.arr .nil, cs')
        else
          match parseItems fuel (c' :: cs') with
          | some (l, r) => some (.arr l, r)
          | none => none
    else if c = '{' then
      match cs with
      | [] => none
      | c' :: cs' =>
        if c' = '}' then some (.obj .nil, cs')
        else
          match parsePairs fuel (c' :: cs') with
          | some (o, r) => some (.obj o, r)
          | none => none
    else if c = '-' then
      match takeDigits cs with
      | (ds, r) => if ds.isEmpty then none else some (.num (-(digitsToNat 0 ds : Int)), r)
    else if c.isDigit then
      match takeDigits (c :: cs) with
      | (ds, r) => some (.num ((digitsToNat 0 ds : Nat) : Int), r)
    else none

/-- Parse the elements of a non-empty array, including the closing bracket. -/
def parseItems : Nat → List Char → Option (JList × List Char)
  | 0, _ => none
  | fuel + 1, cs =>
    match parseV fuel cs with
    | some (v, c :: r) =>
      if c = ',' then
        match parseItems fuel r with
        | some (l, r') => some (.cons v l, r')
        | none => none
      else if c = ']' then some (.cons v .nil, r)
      else none
    | _ => none

/-- Parse the properties of a non-empty object, including the closing brace. -/
def parsePairs : Nat → List Char → Option (JObj × List Char)
  | 0, _ => none
  | fuel + 1, cs =>
    match cs with
    | [] => none
    | c :: cs' =>
      if c = '"' then
        match parseStrAux cs' with
        | some (kd, c' :: r) =>
          if c' = ':' then
            match parseV fuel r with
            | some (v, c'' :: r') =>
              if c'' = ',' then
                match parsePairs fuel r' with
                | some (o, r'') => some (.cons (String.mk kd) v o, r'')
                | none => none
              else if c'' = '}' then some (.cons (String.mk kd) v .nil, r')
              else none
            | _ => none
          else none
        | _ => none
      else none

end

/-! ## Round-trip lemmas -/

/-- The rest of the input is safe to follow a rendered number: it does not
begin with a digit. -/
def restOk : List Char → Bool
  | [] => true
  | c :: _ => !c.isDigit

theorem string_mk_data (s : String) : String.mk s.data = s := by cases s; rfl

theorem digitChar_isDigit {d : Nat} (h : d < 10) : (digitChar d).isDigit = true := by
  interval_cases d <;> decide

theorem digitChar_toNat {d : Nat} (h : d < 10) : (digitChar d).toNat = 48 + d := by
  interval_cases d <;> decide

theorem natChars_ne_nil (n : Nat) : natChars n ≠ [] := by
  rw [natChars_eq]; split <;> simp

theorem natChars_digits (n : Nat) : ∀ c ∈ natChars n, c.isDigit = true := by
  induction n using Nat.strong_induction_on with
  | _ n ih =>
    rw [natChars_eq]
    split
    · next h =>
      intro c hc
      simp only [List.mem_singleton] at hc
      subst hc
      exact digitChar_isDigit h
    · next h =>
      intro c hc
      rcases List.mem_append.mp hc with hc | hc
      · exact ih (n / 10) (Nat.div_lt_self (by omega) (by omega)) c hc
      · simp only [List.mem_singleton] at hc
        subst hc
        exact digitChar_isDigit (Nat.mod_lt _ (by omega))

theorem digitsToNat_cons (acc : Nat) (c : Char) (cs : List Char) :
    digitsToNat acc (c :: cs) = digitsToNat (acc * 10 + (c.toNat - 48)) cs := rfl

theorem digitsToNat_append (acc : Nat) (xs ys : List Char) :
    digitsToNat acc (xs ++ ys) = digitsToNat (digitsToNat acc xs) ys := by
  induction xs generalizing acc with
  | nil => rfl
  | cons c t ih =>
    rw [List.cons_append, digitsToNat_cons, digitsToNat_cons, ih]

theorem digitsToNat_single (acc : Nat) (c : Char) :
    digitsToNat acc [c] = acc * 10 + (c.toNat - 48) := rfl

theorem digitsToNat_natChars (n : Nat) : digitsToNat 0 (natChars n) = n := by
  induction n using Nat.strong_induction_on with
  | _ n ih =>
    rw [natChars_eq]
    split
    · next h =>
      rw [digitsToNat_single, digitChar_toNat h]
      omega
    · next h =>
      rw [digitsToNat_append, ih (n / 10) (Nat.div_lt_self (by omega) (by omega)),
        digitsToNat_single, digitChar_toNat (Nat.mod_lt n (show 0 < 10 by omega))]
      omega

theorem takeDigits_append {ds rest : List Char} (hd : ∀ c ∈ ds, c.isDigit = true)
    (hr : restOk rest = true) : takeDigits (ds ++ rest) = (ds, rest) := by
  induction ds with
  | nil =>
    cases rest with
    | nil => rfl
    | cons c t =>
      simp only [restOk, Bool.not_eq_true'] at hr
      simp [takeDigits, hr]
  | cons c t ih =>
    have hc : c.isDigit = true := hd c (by simp)
    have ht : ∀ x ∈ t, x.isDigit = true := fun x hx => hd x (by simp [hx])
    simp [takeDigits, hc, ih ht]

theorem parseStrAux_quote (cs : List Char) : parseStrAux ('"' :: cs) = some ([], cs) := by
  rw [parseStrAux.eq_def]
  simp

theorem parseStrAux_esc (c : Char) (cs : List Char) :
    parseStrAux ('\\' :: c :: cs) =
      match parseStrAux cs with
      | some (s, r) => some (c :: s, r)
      | none => none := by
  rw [parseStrAux.eq_def]
  simp

theorem parseStrAux_other {c : Char} (h1 : ¬ c = '"') (h2 : ¬ c = '\\') (cs : List Char) :
    parseStrAux (c :: cs) =
      match parseStrAux cs with
      | some (s, r) => some (c :: s, r)
      | none => none := by
  rw [parseStrAux.eq_def]
  simp [h1, h2]

theorem parseStrAux_round (l rest : List Char) :
    parseStrAux (escChars l ++ ('"' :: rest)) = some (l, rest) := by
  induction l with
  | nil =>
    simp only [escChars, List.nil_append]
    exact parseStrAux_quote rest
  | cons c t ih =>
    simp only [escChars, escChar]
    by_cases hc : c = '"' ∨ c = '\\'
    · rw [if_pos hc]
      simp only [List.cons_append, List.nil_append]
      rw [parseStrAux_esc, ih]
    · rw [if_neg hc]
      push_neg at hc
      simp only [List.cons_append, List.nil_append]
      rw [parseStrAux_other hc.1 hc.2, ih]

/-- Characters that can start a rendered JSON value. -/
def headStart (c : Char) : Bool :=
  c = 'n' || c = 't' || c = 'f' || c = '"' || c = '[' || c = '{' || c = '-' || c.isDigit

theorem natChars_head (n : Nat) : ∃ c cs, natChars n = c :: cs ∧ c.isDigit = true := by
  cases h : natChars n with
  | nil => exact absurd h (natChars_ne_nil n)
  | cons c cs =>
    refine ⟨c, cs, rfl, natChars_digits n c ?_⟩
    rw [h]
    simp

theorem strV_head {v : JValue} (h : hasCycV v = false) :
    ∃ c cs, strV v = c :: cs ∧ headStart c = true := by
  cases v with
  | null => exact ⟨'n', _, rfl, by decide⟩
  | bool b =>
    cases b with
    | false => exact ⟨'f', _, rfl, by decide⟩
    | true => exact ⟨'t', _, rfl, by decide⟩
  | num n =>
    show ∃ c cs, intChars n = c :: cs ∧ headStart c = true
    rw [intChars]
    split
    · exact ⟨'-', _, rfl, by decide⟩
    · obtain ⟨c, cs, he, hd⟩ := natChars_head n.toNat
      exact ⟨c, cs, he, by simp [headStart, hd]⟩
  | str s => exact ⟨'"', _, rfl, by decide⟩
  | arr l =>
    cases l with
    | nil => exact ⟨'[', _, rfl, by decide⟩
    | cons v t => exact ⟨'[', _, rfl, by decide⟩
  | obj o =>
    cases o with
    | nil => exact ⟨'{', _, rfl, by decide⟩
    | cons k v t => exact ⟨'{', _, rfl, by decide⟩
  | cyclic => exact absurd h (by simp [hasCycV])

theorem headStart_ne {c : Char} (h : headStart c = true) : c ≠ ']' ∧ c ≠ '}' := by
  constructor <;> intro he <;> subst he <;> exact absurd h (by decide)

theorem digit_not_special {c : Char} (h : c.isDigit = true) :
    ¬ c = 'n' ∧ ¬ c = 't' ∧ ¬ c = 'f' ∧ ¬ c = '"' ∧ ¬ c = '[' ∧ ¬ c = '{' ∧ ¬ c = '-' := by
  refine ⟨?_, ?_, ?_, ?_, ?_, ?_, ?_⟩ <;> (rintro rfl; exact absurd h (by decide))

theorem one_le_sizeV (v : JValue) : 1 ≤ sizeV v := by
  cases v <;> simp +arith [sizeV]

theorem one_le_sizeL (l : JList) : 1 ≤ sizeL l := by
  cases l <;> simp +arith [sizeL]

theorem one_le_sizeO (o : JObj) : 1 ≤ sizeO o := by
  cases o <;> simp +arith [sizeO]

theorem restOk_strItems (t : JList) (rest : List Char) : restOk (strItems t ++ rest) = true := by
  cases t <;> rfl

theorem restOk_strPairs (o : JObj) (rest : List Char) : restOk (strPairs o ++ rest) = true := by
  cases o <;> rfl

/-- Round-trip: parsing a rendered cycle-free value returns that value and
leaves the trailing input untouched, provided the trailing input cannot
extend a number and the fuel covers the value's size. -/
theorem parse_strV (fuel : Nat) :
    (∀ v rest, hasCycV v = false → sizeV v ≤ fuel → restOk rest = true →
      parseV fuel (strV v ++ rest) = some (v, rest)) ∧
    (∀ v t rest, hasCycV v = false → hasCycL t = false → sizeV v + sizeL t ≤ fuel →
      restOk rest = true →
      parseItems fuel (strV v ++ (strItems t ++ rest)) = some (.cons v t, rest)) ∧
    (∀ k v o rest, hasCycV v = false → hasCycO o = false → sizeV v + sizeO o ≤ fuel →
      restOk rest = true →
      parsePairs fuel (strPairKV k v ++ (strPairs o ++ rest)) = some (.cons k v o, rest)) := by
  induction fuel with
  | zero =>
    refine ⟨?_, ?_, ?_⟩
    · intro v rest _ hsz _
      exact absurd hsz (by have := one_le_sizeV v; omega)
    · intro v t rest _ _ hsz _
      exact absurd hsz (by have := one_le_sizeV v; have := one_le_sizeL t; omega)
    · intro k v o rest _ _ hsz _
      exact absurd hsz (by have := one_le_sizeV v; have := one_le_sizeO o; omega)
  | succ fuel IH =>
    obtain ⟨IHV, IHI, IHP⟩ := IH
    refine ⟨?_, ?_, ?_⟩
    · intro v rest hnc hsz hrest
      cases v with
      | null => simp [strV, parseV]
      | bool b =>
        cases b with
        | false => simp [strV, parseV]
        | true => simp [strV, parseV]
      | str s =>
        show parseV (fuel + 1) (('"' :: (escChars s.data ++ ['"'])) ++ rest) = _
        simp only [List.cons_append, List.append_assoc, List.singleton_append]
        simp [parseV, parseStrAux_round, string_mk_data]
      | num n =>
        by_cases hn : n < 0
        · have hds := natChars_digits n.natAbs
          obtain ⟨c0, cs0, he, hd⟩ := natChars_head n.natAbs
          show parseV (fuel + 1) (intChars n ++ rest) = _
          rw [intChars, if_pos hn]
          simp only [List.cons_append]
          simp only [parseV]
          rw [if_neg (by decide), if_neg (by decide), if_neg (by decide),
            if_neg (by decide), if_neg (by decide), if_neg (by decide)]
          rw [takeDigits_append hds hrest]
          have hne : (natChars n.natAbs).isEmpty = false := by rw [he]; rfl
          simp [hne, digitsToNat_natChars]
          rw [abs_of_neg hn, neg_neg]
        · have hds := natChars_digits n.toNat
          obtain ⟨c0, cs0, he, hd⟩ := natChars_head n.toNat
          obtain ⟨h1, h2, h3, h4, h5, h6, h7⟩ := digit_not_special hd
          show parseV (fuel + 1) (intChars n ++ rest) = _
          rw [intChars, if_neg hn, he]
          simp only [List.cons_append]
          simp only [parseV]
          rw [if_neg h1, if_neg h2, if_neg h3, if_neg h4, if_neg h5, if_neg h6,
            if_neg h7, if_pos hd]
          have hback : c0 :: (cs0 ++ rest) = natChars n.toNat ++ rest := by
            rw [he]; rfl
          rw [hback, takeDigits_append hds hrest]
          simp [digitsToNat_natChars]
          omega
      | arr l =>
        cases l with
        | nil => simp [strV, parseV]
        | cons v t =>
          simp only [hasCycV, hasCycL, Bool.or_eq_false_iff] at hnc
          obtain ⟨c0, cs0, he, hh⟩ := strV_head hnc.1
          have hsz' : sizeV v + sizeL t ≤ fuel := by
            simp only [sizeV, sizeL] at hsz; omega
          show parseV (fuel + 1) (('[' :: (strV v ++ strItems t)) ++ rest) = _
          simp only [List.cons_append, List.append_assoc]
          rw [he]
          simp only [List.cons_append]
          simp [parseV]
          rw [if_neg (headStart_ne hh).1]
          have hback : c0 :: (cs0 ++ (strItems t ++ rest)) = strV v ++ (strItems t ++ rest) := by
            rw [he, List.cons_append]
          rw [hback, IHI v t rest hnc.1 hnc.2 hsz' hrest]
      | obj o =>
        cases o with
        | nil => simp [strV, parseV]
        | cons k v t =>
          simp only [hasCycV, hasCycO, Bool.or_eq_false_iff] at hnc
          have hsz' : sizeV v + sizeO t ≤ fuel := by
            simp only [sizeV, sizeO] at hsz; omega
          show parseV (fuel + 1) (strV (.obj (.cons k v t)) ++ rest) = _
          rw [strV_obj_cons]
          simp only [List.cons_append, List.append_assoc]
          have hkv : strPairKV k v ++ (strPairs t ++ rest) =
              '"' :: (escChars k.data ++ ('"' :: (':' :: (strV v ++ (strPairs t ++ rest))))) := by
            simp [strPairKV]
          rw [hkv]
          simp [parseV]
          rw [← hkv, IHP k v t rest hnc.1 hnc.2 hsz' hrest]
      | cyclic => exact absurd hnc (by simp [hasCycV])
    · intro v t rest hv ht hsz hrest
      have h1 : parseV fuel (strV v ++ (strItems t ++ rest)) = some (v, strItems t ++ rest) :=
        IHV v _ hv (by have := one_le_sizeL t; omega) (restOk_strItems t rest)
      cases t with
      | nil =>
        simp only [parseItems]
        rw [h1]
        simp [strItems]
      | cons v' t' =>
        simp only [hasCycL, Bool.or_eq_false_iff] at ht
        have hsz' : sizeV v' + sizeL t' ≤ fuel := by
          simp only [sizeL] at hsz; have := one_le_sizeV v; omega
        have h2 := IHI v' t' rest ht.1 ht.2 hsz' hrest
        simp only [parseItems]
        rw [h1]
        simp only [strItems, List.cons_append, List.append_assoc]
        simp only [strItems, List.cons_append, List.append_assoc] at h2
        simp [h2]
    · intro k v o rest hv ho hsz hrest
      have h1 : parseV fuel (strV v ++ (strPairs o ++ rest)) = some (v, strPairs o ++ rest) :=
        IHV v _ hv (by have := one_le_sizeO o; omega) (restOk_strPairs o rest)
      have hkv : strPairKV k v ++ (strPairs o ++ rest) =
          '"' :: (escChars k.data ++ ('"' :: (':' :: (strV v ++ (strPairs o ++ rest))))) := by
        simp [strPairKV]
      rw [hkv]
      simp only [parsePairs]
      rw [if_pos trivial, parseStrAux_round]
      cases o with
      | nil =>
        simp only [strPairs, List.singleton_append] at h1
        simp [h1, strPairs, string_mk_data]
      | cons k' v' o' =>
        simp only [hasCycO, Bool.or_eq_false_iff] at ho
        have hsz' : sizeV v' + sizeO o' ≤ fuel := by
          simp only [sizeO] at hsz; have := one_le_sizeV v; omega
        have h2 := IHP k' v' o' rest ho.1 ho.2 hsz' hrest
        simp only [strPairs_cons, List.cons_append, List.append_assoc] at h1
        simp [h1, h2, strPairs_cons, string_mk_data, List.append_assoc]

/-- The renderer is injective on cycle-free values. -/
theorem strV_inj {a b : JValue} (ha : hasCycV a = false) (hb : hasCycV b = false)
    (h : strV a = strV b) : a = b := by
  have hA := (parse_strV (max (sizeV a) (sizeV b))).1 a [] ha (le_max_left _ _) rfl
  have hB := (parse_strV (max (sizeV a) (sizeV b))).1 b [] hb (le_max_right _ _) rfl
  rw [List.append_nil] at hA hB
  rw [h, hB] at hA
  have := Option.some.inj hA
  exact (congrArg Prod.fst this).symm

/-! ## `CacheKeyGenerator.sortObject` and `generateKey`

From `src/cache/cache-key-generator.ts` (embedded in the repository source
after `src/errors.ts`): `sortObject` recursively sorts object keys
(`Object.keys(obj).sort()`, i.e. code-unit order) while preserving array
element order, and `generateKey` hashes `JSON.stringify` of the sorted
structure. -/

/-- Code-unit lexicographic order on character lists (JavaScript's default
string comparison used by `Array.prototype.sort`). -/
def charListLe : List Char → List Char → Bool
  | [], _ => true
  | _ :: _, [] => false
  | c :: cs, d :: ds =>
    if c.val < d.val then true
    else if d.val < c.val then false
    else charListLe cs ds

/-- Key comparison for `Object.keys(obj).sort()`. -/
def strLe (a b : String) : Bool := charListLe a.data b.data

/-- Insert a property into a key-sorted object. -/
def insertPair (k : String) (v : JValue) : JObj → JObj
  | .nil => .cons k v .nil
  | .cons k' v' t =>
    if strLe k k' then .cons k v (.cons k' v' t) else .cons k' v' (insertPair k v t)

/-- Sort an object's properties by key (insertion sort). -/
def sortPairs : JObj → JObj
  | .nil => .nil
  | .cons k v t => insertPair k v (sortPairs t)

mutual

/-- Source `CacheKeyGenerator.sortObject`: primitives unchanged, arrays mapped
elementwise (order preserved), objects mapped elementwise and key-sorted. -/
def sortObject : JValue → JValue
  | .null => .null
  | .bool b => .bool b
  | .num n => .num n
  | .str s => .str s
  | .arr l => .arr (sortList l)
  | .obj o => .obj (sortPairs (sortVals o))
  | .cyclic => .cyclic

/-- The map of `sortObject` over an array body. -/
def sortList : JList → JList
  | .nil => .nil
  | .cons v t => .cons (sortObject v) (sortList t)

/-- The map of `sortObject` over the values of an object body. -/
def sortVals : JObj → JObj
  | .nil => .nil
  | .cons k v t => .cons k (sortObject v) (sortVals t)

end

/-- The SHA-256 hex digest, modelled as an injective function of the
canonical string (see the module docstring). -/
def sha256hex (s : String) : String := s

namespace CacheKeyGenerator

/-- Source `CacheKeyGenerator.generateKey`: sort the parameter bag, serialize it
canonically, hash it.  A circular bag makes the `sortObject`/`stringify`
pipeline throw, which surfaces here as `Except.error`. -/
def generateKey (params : JObj) : Except String String :=
  match JSONstringify (sortObject (.obj params)) with
  | .ok jsonString => .ok (sha256hex jsonString)
  | .error e => .error e

end CacheKeyGenerator

/-! ## `OpenAICacheKeyGenerator` -/

/-- Keep a property when the looked-up field is present. -/
def consIfPresent (k : String) (mv : Option JValue) (t : JObj) : JObj :=
  match mv with
  | some v => .cons k v t
  | none => t

/-- Keep a property when the looked-up field is present and truthy
(the source guards `function_call`/`tool_calls`/`name` with `if (msg.x)`). -/
def consIfTruthy (k : String) (mv : Option JValue) (t : JObj) : JObj :=
  match mv with
  | some v => if truthy v then .cons k v t else t
  | none => t

namespace OpenAICacheKeyGenerator

/-- One message of `normalizeMessages`: keep only `role`, `content`, and,
when present (and truthy, per the source's guards), `function_call`,
`tool_calls`, `name`.  An absent field reads as `undefined`, whose property
`JSON.stringify` drops, which is modelled by omitting the property. -/
def normalizeMessage (m : JValue) : JValue :=
  match m with
  | .obj o =>
    .obj (consIfPresent "role" (getF o "role")
      (consIfPresent "content" (getF o "content")
        (consIfTruthy "function_call" (getF o "function_call")
          (consIfTruthy "tool_calls" (getF o "tool_calls")
            (consIfTruthy "name" (getF o "name") .nil)))))
  | _ => .obj .nil

/-- Source `OpenAICacheKeyGenerator.normalizeMessages`. -/
def normalizeMessages : JList → JList
  | .nil => .nil
  | .cons m t => .cons (normalizeMessage m) (normalizeMessages t)

/-- Source `OpenAICacheKeyGenerator.generateKey`: delete `stream`, `user` and
`logprobs` from a copy of the bag, normalize `messages` when truthy, then
defer to the base generator.  A truthy non-array `messages` makes
`messages.map` throw in the source, modelled as `Except.error`. -/
def generateKey (params : JObj) : Except String String :=
  let cacheableParams := deleteF "logprobs" (deleteF "user" (deleteF "stream" params))
  match getF cacheableParams "messages" with
  | some v =>
    if truthy v then
      match v with
      | .arr l =>
        CacheKeyGenerator.generateKey
          (setField "messages" (.arr (normalizeMessages l)) cacheableParams)
      | _ => .error "cacheableParams.messages.map is not a function"
    else CacheKeyGenerator.generateKey cacheableParams
  | none => CacheKeyGenerator.generateKey cacheableParams

end OpenAICacheKeyGenerator

/-! ## `InMemoryCache` (`src/cache/in-memory-cache.ts`)

The JavaScript `Map` is modelled by an insertion-ordered association list:
`Map.set` on an existing key updates the entry in place (keeping its
position), otherwise appends; iteration order is list order.  `Date.now()`
is the explicit `now` argument. -/

/-- A cache entry with metadata (`CacheEntry<T>` of `cache/interfaces.ts`). -/
structure CacheEntry (T : Type) where
  value : T
  createdAt : Nat
  expiresAt : Nat
  accessCount : Nat
  lastAccessedAt : Nat
deriving DecidableEq

/-- The eviction strategy of `CacheConfig`. -/
inductive EvictionStrategy : Type
  | LRU
  | LFU
  | FIFO
deriving DecidableEq

/-- The `CacheConfig` of `cache/interfaces.ts`. -/
structure CacheConfig where
  enabled : Bool
  ttl : Nat
  maxSize : Nat
  strategy : EvictionStrategy
deriving DecidableEq

/-- The `CacheStats` of `cache/interfaces.ts`. -/
structure CacheStats where
  hits : Nat
  misses : Nat
  sets : Nat
  deletes : Nat
  evictions : Nat
  size : Nat
  maxSize : Nat
deriving DecidableEq

/-- The state of an `InMemoryCache<T>` instance. -/
structure InMemoryCache (T : Type) where
  entries : List (String × CacheEntry T)
  stats : CacheStats
  config : CacheConfig
deriving DecidableEq

namespace InMemoryCache

/-- The constructor: empty map, zeroed counters, `maxSize` copied from the
config. -/
def new (T : Type) (config : CacheConfig) : InMemoryCache T :=
  { entries := []
    stats := { hits := 0, misses := 0, sets := 0, deletes := 0, evictions := 0,
               size := 0, maxSize := config.maxSize }
    config := config }

/-- JavaScript `Map.get`. -/
def mapGet {T : Type} (l : List (String × CacheEntry T)) (k : String) : Option (CacheEntry T) :=
  match l.find? (fun p => p.1 == k) with
  | some p => some p.2
  | none => none

/-- JavaScript `Map.has`. -/
def mapHas {T : Type} (l : List (String × CacheEntry T)) (k : String) : Bool :=
  (mapGet l k).isSome

/-- JavaScript `Map.set`: update in place when the key exists, else append. -/
def mapSet {T : Type} (l : List (String × CacheEntry T)) (k : String) (e : CacheEntry T) :
    List (String × CacheEntry T) :=
  if mapHas l k then l.map (fun p => if p.1 == k then (p.1, e) else p) else l ++ [(k, e)]

/-- JavaScript `Map.delete` (the removal part). -/
def mapDelete {T : Type} (l : List (String × CacheEntry T)) (k : String) :
    List (String × CacheEntry T) :=
  l.filter (fun p => p.1 != k)

/-- Source `InMemoryCache.delete`: remove if present; on success bump `deletes` and
refresh `size`. -/
def delete {T : Type} (c : InMemoryCache T) (key : String) : InMemoryCache T × Bool :=
  if mapHas c.entries key then
    let entries := mapDelete c.entries key
    ({ c with
        entries := entries
        stats := { c.stats with deletes := c.stats.deletes + 1, size := entries.length } },
      true)
  else (c, false)

/-- Source `InMemoryCache.get`: miss on absent key; lazy-delete and miss on an
expired entry (`Date.now() > entry.expiresAt`); otherwise bump the entry's
access metadata and `hits` and return the value. -/
def get {T : Type} (c : InMemoryCache T) (now : Nat) (key : String) :
    InMemoryCache T × Option T :=
  match mapGet c.entries key with
  | none => ({ c with stats := { c.stats with misses := c.stats.misses + 1 } }, none)
  | some entry =>
    if now > entry.expiresAt then
      let c1 := (delete c key).1
      ({ c1 with stats := { c1.stats with misses := c1.stats.misses + 1 } }, none)
    else
      let entry1 := { entry with accessCount := entry.accessCount + 1, lastAccessedAt := now }
      ({ c with
          entries := mapSet c.entries key entry1
          stats := { c.stats with hits := c.stats.hits + 1 } },
        some entry.value)

/-- Source `InMemoryCache.has`: same liveness test as `get`, still lazy-deletes an
expired entry, but touches neither access metadata nor hit/miss counters. -/
def has {T : Type} (c : InMemoryCache T) (now : Nat) (key : String) :
    InMemoryCache T × Bool :=
  match mapGet c.entries key with
  | none => (c, false)
  | some entry =>
    if now > entry.expiresAt then ((delete c key).1, false)
    else (c, true)

/-- The victim scan shared by `evictLRU`/`evictLFU`/`evictFIFO`: a left
fold tracking the best `(key, f entry)` so far, starting from `null` /
`Infinity` (so the first entry always wins, then strictly smaller values
take over). -/
def victimScan {T : Type} (f : CacheEntry T → Nat) :
    Option (String × Nat) → List (String × CacheEntry T) → Option (String × Nat)
  | acc, [] => acc
  | acc, (k, e) :: rest =>
    victimScan f
      (match acc with
       | none => some (k, f e)
       | some (bk, bt) => if f e < bt then some (k, f e) else some (bk, bt))
      rest

/-- Victim selection over the whole entry list. -/
def selectVictim {T : Type} (f : CacheEntry T → Nat) (l : List (String × CacheEntry T)) :
    Option (String × Nat) :=
  victimScan f none l

/-- The shared shape of `evictLRU`/`evictLFU`/`evictFIFO`: scan for the key
minimizing `f`, then — guarded by the truthiness check `if (oldestKey)`,
which skips both `null` (empty cache) and the empty-string key — delete it
directly from the map, bump `evictions`, refresh `size`. -/
def evictBy {T : Type} (c : InMemoryCache T) (f : CacheEntry T → Nat) : InMemoryCache T :=
  match selectVictim f c.entries with
  | some (key, _) =>
    if key = "" then c
    else
      let entries := mapDelete c.entries key
      { c with
          entries := entries
          stats := { c.stats with
                     evictions := c.stats.evictions + 1
                     size := entries.length } }
  | none => c

/-- Source `InMemoryCache.evictLRU`: smallest `lastAccessedAt`. -/
def evictLRU {T : Type} (c : InMemoryCache T) : InMemoryCache T :=
  evictBy c (fun e => e.lastAccessedAt)

/-- Source `InMemoryCache.evictLFU`: smallest `accessCount`. -/
def evictLFU {T : Type} (c : InMemoryCache T) : InMemoryCache T :=
  evictBy c (fun e => e.accessCount)

/-- Source `InMemoryCache.evictFIFO`: smallest `createdAt`. -/
def evictFIFO {T : Type} (c : InMemoryCache T) : InMemoryCache T :=
  evictBy c (fun e => e.createdAt)

/-- Source `InMemoryCache.evict`: dispatch on the configured strategy (default is
LRU). -/
def evict {T : Type} (c : InMemoryCache T) : InMemoryCache T :=
  match c.config.strategy with
  | .LRU => evictLRU c
  | .LFU => evictLFU c
  | .FIFO => evictFIFO c

/-- Source `InMemoryCache.set`: evict first when at capacity and inserting a new
key; then insert with fresh metadata, bump `sets`, refresh `size`. -/
def set {T : Type} (c : InMemoryCache T) (now : Nat) (key : String) (value : T)
    (ttl : Option Nat) : InMemoryCache T :=
  let effectiveTtl := ttl.getD c.config.ttl
  let c1 :=
    if c.entries.length ≥ c.config.maxSize ∧ mapHas c.entries key = false then evict c else c
  let entry : CacheEntry T :=
    { value := value, createdAt := now, expiresAt := now + effectiveTtl,
      accessCount := 0, lastAccessedAt := now }
  let entries := mapSet c1.entries key entry
  { c1 with
      entries := entries
      stats := { c1.stats with sets := c1.stats.sets + 1, size := entries.length } }

/-- Source `InMemoryCache.clear`: drop all entries, reset `size` only. -/
def clear {T : Type} (c : InMemoryCache T) : InMemoryCache T :=
  { c with entries := [], stats := { c.stats with size := 0 } }

/-- Source `InMemoryCache.getStats` (snapshot). -/
def getStats {T : Type} (c : InMemoryCache T) : CacheStats := c.stats

/-- Source `InMemoryCache.size`. -/
def size {T : Type} (c : InMemoryCache T) : Nat := c.entries.length

/-- The loop body of `cleanupExpired`, iterating over the entry snapshot and
routing each expired entry through `delete`. -/
def cleanupGo {T : Type} (now : Nat) :
    InMemoryCache T → List (String × CacheEntry T) → InMemoryCache T × Nat
  | c, [] => (c, 0)
  | c, (k, e) :: rest =>
    if now > e.expiresAt then
      let c1 := (delete c k).1
      let r := cleanupGo now c1 rest
      (r.1, r.2 + 1)
    else cleanupGo now c rest

/-- Source `InMemoryCache.cleanupExpired`: delete every expired entry, return the
count removed. -/
def cleanupExpired {T : Type} (c : InMemoryCache T) (now : Nat) : InMemoryCache T × Nat :=
  cleanupGo now c c.entries

end InMemoryCache

/-! ## `CacheService` (`src/cache/cache-service.ts`)

The facade holds the store and shares the same `CacheConfig` object with it,
so the store state suffices as the facade state.  `get`/`set`/`has` and the
domain pairs are gated on `config.enabled`; `delete`/`clear`/`size` are
forwarded unconditionally. -/

namespace CacheService

/-- Source `CacheService.get`: always-absent when disabled, else forwarded. -/
def get {T : Type} (c : InMemoryCache T) (now : Nat) (key : String) :
    InMemoryCache T × Option T :=
  if !c.config.enabled then (c, none) else InMemoryCache.get c now key

/-- Source `CacheService.set`: no-op when disabled, else forwarded. -/
def set {T : Type} (c : InMemoryCache T) (now : Nat) (key : String) (value : T)
    (ttl : Option Nat) : InMemoryCache T :=
  if !c.config.enabled then c else InMemoryCache.set c now key value ttl

/-- Source `CacheService.has`: `false` when disabled, else forwarded. -/
def has {T : Type} (c : InMemoryCache T) (now : Nat) (key : String) :
    InMemoryCache T × Bool :=
  if !c.config.enabled then (c, false) else InMemoryCache.has c now key

/-- Source `CacheService.delete`: forwarded unconditionally (no `enabled` gate in
the source). -/
def delete {T : Type} (c : InMemoryCache T) (key : String) : InMemoryCache T × Bool :=
  InMemoryCache.delete c key

/-- Source `CacheService.clear`: forwarded unconditionally. -/
def clear {T : Type} (c : InMemoryCache T) : InMemoryCache T :=
  InMemoryCache.clear c

/-- Source `CacheService.size`: forwarded unconditionally. -/
def size {T : Type} (c : InMemoryCache T) : Nat :=
  InMemoryCache.size c

/-- Source `CacheService.generateChatKey`: the fixed parameter bag handed to the
specialized generator. -/
def generateChatKey (model : String) (messages : JList) (temperature maxTokens : Int) :
    Except String String :=
  OpenAICacheKeyGenerator.generateKey
    (.cons "type" (.str "chat")
      (.cons "model" (.str model)
        (.cons "messages" (.arr messages)
          (.cons "temperature" (.num temperature)
            (.cons "max_tokens" (.num maxTokens) .nil)))))

/-- Source `CacheService.getChatCompletion`: absent when disabled; otherwise the
key is generated with no surrounding `try`/`catch`, so a key-generation
throw propagates to the caller (`Except.error`). -/
def getChatCompletion {T : Type} (c : InMemoryCache T) (now : Nat) (model : String)
    (messages : JList) (temperature maxTokens : Int) :
    Except String (InMemoryCache T × Option T) :=
  if !c.config.enabled then .ok (c, none)
  else
    match generateChatKey model messages temperature maxTokens with
    | .error e => .error e
    | .ok key => .ok (InMemoryCache.get c now key)

/-- Source `CacheService.setChatCompletion`: no-op when disabled; otherwise the
key generation is likewise uncaught. -/
def setChatCompletion {T : Type} (c : InMemoryCache T) (now : Nat) (model : String)
    (messages : JList) (temperature maxTokens : Int) (result : T) (ttl : Option Nat) :
    Except String (InMemoryCache T) :=
  if !c.config.enabled then .ok c
  else
    match generateChatKey model messages temperature maxTokens with
    | .error e => .error e
    | .ok key => .ok (InMemoryCache.set c now key result ttl)

end CacheService

deriving instance DecidableEq for Except

/-! ## Concrete scenarios shared by the claim theorems -/

/-- An enabled LRU config with a 1000ms TTL and room for 3 entries. -/
def cfgLRU3 : CacheConfig := { enabled := true, ttl := 1000, maxSize := 3, strategy := .LRU }

/-- An enabled LRU config with room for a single entry. -/
def cfgLRU1 : CacheConfig := { enabled := true, ttl := 1000, maxSize := 1, strategy := .LRU }

/-- An enabled LRU config with a 100ms TTL. -/
def cfgTTL100 : CacheConfig := { enabled := true, ttl := 100, maxSize := 3, strategy := .LRU }

/-- A chat message whose `content` is a self-referential structure, so it
survives `normalizeMessages` and makes the serialization throw. -/
def circContentMsg : JValue :=
  .obj (.cons "role" (.str "user")
    (.cons "content" (.obj (.cons "a" (.num 1) (.cons "self" .cyclic .nil))) .nil))

/-- A store whose single entry was created at time 0 with a 100ms TTL, so
`expiresAt = 100`. -/
def boundaryStore : InMemoryCache Nat :=
  InMemoryCache.set (InMemoryCache.new Nat cfgTTL100) 0 "k" 5 none

/-- A disabled store that still holds one entry (as after `setEnabled(false)`
on a populated cache). -/
def disabledStore : InMemoryCache Nat :=
  { entries := [("k",
      { value := 9
        createdAt := 0
        expiresAt := 1000
        accessCount := 0
        lastAccessedAt := 0 })]
    stats := { hits := 0, misses := 0, sets := 1, deletes := 0, evictions := 0,
               size := 1, maxSize := 3 }
    config := { enabled := false, ttl := 1000, maxSize := 3, strategy := .LRU } }

/-- Fill a 1-slot store with the empty-string key, then insert a fresh key. -/
def overflowStore : InMemoryCache Nat :=
  InMemoryCache.set (InMemoryCache.set (InMemoryCache.new Nat cfgLRU1) 0 "" 7 none) 1 "x" 8 none

/-! ## Claims -/

/-- C1 — the claim is refuted by the code: `getChatCompletion` and
`setChatCompletion` call `generateChatKey` with no surrounding `try`/`catch`
(`cache-service.ts` lines 26–54, 141–154), so a parameter bag on which key
generation throws (here: a message whose `content` is self-referential,
which `normalizeMessages` keeps) makes both operations propagate the
exception instead of degrading to a miss / no-op.  The repository's own
tests (`tests/cache/cache-service.test.ts`, "エラーハンドリング") and the
spec (§4.5, §7) require the error to be caught, so this is a code bug. -/
theorem C1_keygen_error_propagates :
    CacheService.getChatCompletion (InMemoryCache.new Nat cfgLRU3) 0 "gpt-4o"
        (.cons circContentMsg .nil) 0 1000
      = .error "Converting circular structure to JSON" ∧
    CacheService.setChatCompletion (InMemoryCache.new Nat cfgLRU3) 0 "gpt-4o"
        (.cons circContentMsg .nil) 0 1000 42 none
      = .error "Converting circular structure to JSON" := by decide

/-- C2 counterexample — at exactly `expiresAt` (entry created at 0 with TTL
100, probed at 100) the entry is returned, not treated as expired: the code
tests `Date.now() > entry.expiresAt`, so the boundary is live. -/
theorem C2_counterexample_boundary_live :
    (InMemoryCache.get boundaryStore 100 "k").2 = some 5 ∧
    (InMemoryCache.has boundaryStore 100 "k").2 = true := by decide

/-- C2 amended — for every stored entry, `get`/`has` report absent strictly
after `expiresAt` and present at or before it: the boundary `now =
expiresAt` counts as live (present), matching §3's "live iff `now <=
expiresAt`" and refuting §8's "exactly at `expiresAt`, treat as expired". -/
theorem C2_ttl_boundary_amended {T : Type} (c : InMemoryCache T) (now : Nat) (key : String)
    (e : CacheEntry T) (h : InMemoryCache.mapGet c.entries key = some e) :
    (now > e.expiresAt →
      (InMemoryCache.get c now key).2 = none ∧ (InMemoryCache.has c now key).2 = false) ∧
    (now ≤ e.expiresAt →
      (InMemoryCache.get c now key).2 = some e.value ∧ (InMemoryCache.has c now key).2 = true) := by
  constructor
  · intro hgt
    simp [InMemoryCache.get, InMemoryCache.has, h, hgt]
  · intro hle
    have hngt : ¬ now > e.expiresAt := by omega
    simp [InMemoryCache.get, InMemoryCache.has, h, hngt]

/-- C2 witness — the amended theorem applied to the boundary store at the
boundary instant and strictly after it. -/
theorem C2_ttl_boundary_amended_witness :
    (InMemoryCache.get boundaryStore 100 "k").2 = some 5 ∧
    (InMemoryCache.get boundaryStore 101 "k").2 = none := by
  have h100 := C2_ttl_boundary_amended boundaryStore 100 "k"
    { value := 5, createdAt := 0, expiresAt := 100, accessCount := 0, lastAccessedAt := 0 }
    (by decide)
  have h101 := C2_ttl_boundary_amended boundaryStore 101 "k"
    { value := 5, createdAt := 0, expiresAt := 100, accessCount := 0, lastAccessedAt := 0 }
    (by decide)
  exact ⟨(h100.2 (by decide)).1, (h101.1 (by decide)).1⟩

/-- C3 — the claim is refuted by the code: with `maxEntries = 1`, inserting
`""` and then a fresh key leaves the store with 2 entries.  The eviction
guard `if (oldestKey)` in `evictLRU` (`in-memory-cache.ts` line 143) is a
truthiness check, and the empty-string key is falsy, so when the LRU victim
is the `""` entry nothing is evicted and the capacity bound breaks.  The
surrounding code (the capacity check in `set`, the spec's §8 capacity bound)
makes clear the guard was meant as a null check, so this is a code bug. -/
theorem C3_capacity_bound_violated :
    overflowStore.config.maxSize = 1 ∧ InMemoryCache.size overflowStore = 2 := by decide

/-- C4 counterexample — on a disabled cache holding an entry, `delete`
removes it (and returns `true`), and `clear` empties the store: neither is
gated by `config.enabled`, contradicting the claim that all six generic
operations are. -/
theorem C4_counterexample_delete_when_disabled :
    disabledStore.config.enabled = false ∧
    (CacheService.delete disabledStore "k").2 = true ∧
    (CacheService.delete disabledStore "k").1.entries = [] ∧
    (CacheService.clear disabledStore).entries = [] := by decide

/-- C4 amended — only `get`, `set` and `has` are gated by `config.enabled`;
`delete`, `clear` and `size` are forwarded to the store unconditionally, so
a disabled cache still deletes, clears and reports its size. -/
theorem C4_gating_amended {T : Type} (c : InMemoryCache T) (now : Nat) (key : String)
    (v : T) (ttl : Option Nat) (h : c.config.enabled = false) :
    CacheService.get c now key = (c, none) ∧
    CacheService.set c now key v ttl = c ∧
    CacheService.has c now key = (c, false) ∧
    CacheService.delete c key = InMemoryCache.delete c key ∧
    CacheService.clear c = InMemoryCache.clear c ∧
    CacheService.size c = InMemoryCache.size c := by
  simp [CacheService.get, CacheService.set, CacheService.has, CacheService.delete,
    CacheService.clear, CacheService.size, h]

/-- C4 witness — the amended theorem applied to the disabled store. -/
theorem C4_gating_amended_witness :
    CacheService.get disabledStore 0 "k" = (disabledStore, none) ∧
    CacheService.delete disabledStore "k" = InMemoryCache.delete disabledStore "k" := by
  have h := C4_gating_amended disabledStore 0 "k" 3 none (by decide)
  exact ⟨h.1, h.2.2.2.1⟩

/-- C8 — on a disabled facade, `set` leaves the store exactly as it was (no
entry is created, pre-existing entries are untouched) and a subsequent
`get` of the same key is absent. -/
theorem C8_disabled_set_get_noop {T : Type} (c : InMemoryCache T) (now now' : Nat)
    (key : String) (v : T) (ttl : Option Nat) (h : c.config.enabled = false) :
    CacheService.set c now key v ttl = c ∧
    (CacheService.get (CacheService.set c now key v ttl) now' key).2 = none ∧
    (CacheService.get (CacheService.set c now key v ttl) now' key).1 = c := by
  have hset : CacheService.set c now key v ttl = c := by simp [CacheService.set, h]
  rw [hset]
  simp [CacheService.get, h]

/-- C8 witness — the theorem applied to the populated disabled store. -/
theorem C8_disabled_set_get_noop_witness :
    CacheService.set disabledStore 0 "fresh" 1 none = disabledStore ∧
    (CacheService.get disabledStore 1 "fresh").2 = none := by
  have h := C8_disabled_set_get_noop disabledStore 0 1 "fresh" 1 none (by decide)
  refine ⟨h.1, ?_⟩
  have h2 := h.2.1
  rw [h.1] at h2
  exact h2

/-! ## Victim-scan characterization (for C7) -/

/-- Running the scan from an existing best either keeps the best (and then
every scanned entry is no smaller) or finds a strictly better first
minimum, located by its surrounding list decomposition. -/
theorem victimScan_some {T : Type} (f : CacheEntry T → Nat) :
    ∀ (l : List (String × CacheEntry T)) (bk : String) (bt : Nat) (k : String) (t : Nat),
      InMemoryCache.victimScan f (some (bk, bt)) l = some (k, t) →
      (k = bk ∧ t = bt ∧ ∀ p ∈ l, bt ≤ f p.2) ∨
      (t < bt ∧ ∃ pre e suf, l = pre ++ (k, e) :: suf ∧ f e = t ∧
        (∀ p ∈ pre, t < f p.2) ∧ (∀ p ∈ suf, t ≤ f p.2)) := by
  intro l
  induction l with
  | nil =>
    intro bk bt k t h
    simp only [InMemoryCache.victimScan] at h
    injection h with h
    injection h with h1 h2
    exact Or.inl ⟨h1.symm, h2.symm, by simp⟩
  | cons p l' ih =>
    intro bk bt k t h
    obtain ⟨k0, e0⟩ := p
    simp only [InMemoryCache.victimScan] at h
    by_cases hlt : f e0 < bt
    · rw [if_pos hlt] at h
      rcases ih k0 (f e0) k t h with ⟨h1, h2, h3⟩ | ⟨h1, pre, e, suf, h2, h3, h4, h5⟩
      · refine Or.inr ⟨by omega, [], e0, l', ?_, ?_, ?_, ?_⟩
        · simp [h1]
        · omega
        · simp
        · intro q hq
          have := h3 q hq
          omega
      · refine Or.inr ⟨by omega, (k0, e0) :: pre, e, suf, ?_, h3, ?_, h5⟩
        · rw [h2]; rfl
        · intro q hq
          rcases List.mem_cons.mp hq with rfl | hq
          · simpa using (by omega : t < f e0)
          · exact h4 q hq
    · rw [if_neg hlt] at h
      rcases ih bk bt k t h with ⟨h1, h2, h3⟩ | ⟨h1, pre, e, suf, h2, h3, h4, h5⟩
      · refine Or.inl ⟨h1, h2, ?_⟩
        intro q hq
        rcases List.mem_cons.mp hq with rfl | hq
        · simpa using (by omega : bt ≤ f e0)
        · exact h3 q hq
      · refine Or.inr ⟨h1, (k0, e0) :: pre, e, suf, ?_, h3, ?_, h5⟩
        · rw [h2]; rfl
        · intro q hq
          rcases List.mem_cons.mp hq with rfl | hq
          · simpa using (by omega : t < f e0)
          · exact h4 q hq

/-- The scan `selectVictim` returns the first entry attaining the minimal `f`-value:
it splits the list into a strict-greater prefix, the victim, and a
no-smaller suffix. -/
theorem selectVictim_first_min {T : Type} (f : CacheEntry T → Nat)
    (l : List (String × CacheEntry T)) (k : String) (t : Nat)
    (h : InMemoryCache.selectVictim f l = some (k, t)) :
    ∃ pre e suf, l = pre ++ (k, e) :: suf ∧ f e = t ∧
      (∀ p ∈ pre, t < f p.2) ∧ (∀ p ∈ l, t ≤ f p.2) := by
  cases l with
  | nil => simp [InMemoryCache.selectVictim, InMemoryCache.victimScan] at h
  | cons p l' =>
    obtain ⟨k0, e0⟩ := p
    have h' : InMemoryCache.victimScan f (some (k0, f e0)) l' = some (k, t) := h
    rcases victimScan_some f l' k0 (f e0) k t h' with ⟨h1, h2, h3⟩ | ⟨h1, pre, e, suf, h2, h3, h4, h5⟩
    · subst h1; subst h2
      refine ⟨[], e0, l', rfl, rfl, by simp, ?_⟩
      intro q hq
      rcases List.mem_cons.mp hq with rfl | hq
      · simp
      · exact h3 q hq
    · refine ⟨(k0, e0) :: pre, e, suf, by rw [h2]; rfl, h3, ?_, ?_⟩
      · intro q hq
        rcases List.mem_cons.mp hq with rfl | hq
        · simpa using h1
        · exact h4 q hq
      · intro q hq
        rcases List.mem_cons.mp hq with rfl | hq
        · simpa using (by omega : t ≤ f e0)
        · rw [h2] at hq
          rcases List.mem_append.mp hq with hq | hq
          · have := h4 q hq; omega
          · rcases List.mem_cons.mp hq with rfl | hq
            · simp [h3]
            · exact h5 q hq

/-! ## C7 scenario states -/

/-- Insert `k1`,`k2`,`k3` at times 0,1,2 into a 3-slot LRU store, then read
`k1` at time 3, making `k2` the least recently used. -/
def lruAfterRead : InMemoryCache Nat :=
  (InMemoryCache.get
    (InMemoryCache.set
      (InMemoryCache.set
        (InMemoryCache.set (InMemoryCache.new Nat cfgLRU3) 0 "k1" 1 none)
        1 "k2" 2 none)
      2 "k3" 3 none)
    3 "k1").1

/-- Then insert a fourth key at time 4. -/
def lruAfterInsert : InMemoryCache Nat :=
  InMemoryCache.set lruAfterRead 4 "k4" 4 none

/-- C7 — under LRU, whenever the eviction scan picks a victim that the
truthiness guard lets through, the removed entry is the first (in insertion
order) among those with the smallest `lastAccessedAt`; and in the concrete
A,B,C-insert / A-read / D-insert scenario, `k2` is evicted while `k1`,`k3`,
`k4` remain. -/
theorem C7_lru_victim_selection :
    (∀ (T : Type) (c : InMemoryCache T) (k : String) (t : Nat),
      InMemoryCache.selectVictim (fun e => e.lastAccessedAt) c.entries = some (k, t) →
      k ≠ "" →
      (∃ (pre : List (String × CacheEntry T)) (e : CacheEntry T)
          (suf : List (String × CacheEntry T)),
        c.entries = pre ++ (k, e) :: suf ∧ e.lastAccessedAt = t ∧
        (∀ p ∈ pre, t < p.2.lastAccessedAt) ∧ (∀ p ∈ c.entries, t ≤ p.2.lastAccessedAt)) ∧
      (InMemoryCache.evictLRU c).entries = InMemoryCache.mapDelete c.entries k ∧
      (InMemoryCache.evictLRU c).stats.evictions = c.stats.evictions + 1) ∧
    (InMemoryCache.mapGet lruAfterInsert.entries "k2" = none ∧
      lruAfterInsert.entries.map Prod.fst = ["k1", "k3", "k4"] ∧
      InMemoryCache.size lruAfterInsert = 3) := by
  constructor
  · intro T c k t hsel hk
    constructor
    · obtain ⟨pre, e, suf, hdec, hf, hpre, hall⟩ :=
        selectVictim_first_min (fun e => e.lastAccessedAt) c.entries k t hsel
      exact ⟨pre, e, suf, hdec, hf, hpre, hall⟩
    · constructor
      · simp [InMemoryCache.evictLRU, InMemoryCache.evictBy, hsel, hk]
      · simp [InMemoryCache.evictLRU, InMemoryCache.evictBy, hsel, hk]
  · refine ⟨by decide, by decide, by decide⟩

/-- C7 witness — the general clause applied to the scenario store right
before the fourth insert: the scan picks `k2` (last accessed at time 1) and
`evictLRU` removes exactly it. -/
theorem C7_lru_victim_selection_witness :
    (InMemoryCache.evictLRU lruAfterRead).entries
      = InMemoryCache.mapDelete lruAfterRead.entries "k2" ∧
    (InMemoryCache.evictLRU lruAfterRead).stats.evictions
      = lruAfterRead.stats.evictions + 1 := by
  have h := C7_lru_victim_selection.1 Nat lruAfterRead "k2" 1 (by decide) (by decide)
  exact ⟨h.2.1, h.2.2⟩

/-! ## Map lemmas (for C9/C10) -/

theorem mapGet_cons {T : Type} (pk : String) (pe : CacheEntry T) (t : List (String × CacheEntry T))
    (k : String) :
    InMemoryCache.mapGet ((pk, pe) :: t) k
      = if pk = k then some pe else InMemoryCache.mapGet t k := by
  by_cases h : pk = k <;>
    simp [InMemoryCache.mapGet, List.find?_cons, h]

theorem mapDelete_cons {T : Type} (pk : String) (pe : CacheEntry T)
    (t : List (String × CacheEntry T)) (k : String) :
    InMemoryCache.mapDelete ((pk, pe) :: t) k
      = if pk = k then InMemoryCache.mapDelete t k
        else (pk, pe) :: InMemoryCache.mapDelete t k := by
  by_cases h : pk = k <;>
    simp [InMemoryCache.mapDelete, List.filter_cons, h]

theorem mapGet_mapDelete {T : Type} (l : List (String × CacheEntry T)) (k k' : String) :
    InMemoryCache.mapGet (InMemoryCache.mapDelete l k) k'
      = if k' = k then none else InMemoryCache.mapGet l k' := by
  induction l with
  | nil => simp [InMemoryCache.mapGet, InMemoryCache.mapDelete]
  | cons p t ih =>
    obtain ⟨pk, pe⟩ := p
    rw [mapDelete_cons]
    by_cases h1 : pk = k
    · rw [if_pos h1, ih, mapGet_cons]
      by_cases h2 : k' = k
      · simp [h2]
      · have : ¬ pk = k' := by rw [h1]; exact fun he => h2 he.symm
        simp [h2, this]
    · rw [if_neg h1, mapGet_cons, mapGet_cons, ih]
      by_cases h2 : pk = k'
      · have : ¬ k' = k := by rw [← h2]; exact h1
        simp [h2, this]
      · simp [h2]

theorem mem_mapHas {T : Type} (l : List (String × CacheEntry T)) (p : String × CacheEntry T)
    (h : p ∈ l) : InMemoryCache.mapHas l p.1 = true := by
  induction l with
  | nil => simp at h
  | cons q t ih =>
    obtain ⟨qk, qe⟩ := q
    rcases List.mem_cons.mp h with rfl | h
    · simp [InMemoryCache.mapHas, mapGet_cons]
    · by_cases hq : qk = p.1
      · simp [InMemoryCache.mapHas, mapGet_cons, hq]
      · have := ih h
        simp [InMemoryCache.mapHas, mapGet_cons, hq] at this ⊢
        exact this

/-- C9 — `has` answers exactly "would `get` return a value", still removes
an expired entry, and performs no bookkeeping: `hits`/`misses` are
untouched, and every entry still present afterwards is byte-for-byte the
entry that was there before (so no `accessCount`/`lastAccessedAt` bump). -/
theorem C9_has_mirrors_get_without_bookkeeping {T : Type} (c : InMemoryCache T) (now : Nat)
    (key : String) :
    (InMemoryCache.has c now key).2 = ((InMemoryCache.get c now key).2).isSome ∧
    (InMemoryCache.has c now key).1.stats.hits = c.stats.hits ∧
    (InMemoryCache.has c now key).1.stats.misses = c.stats.misses ∧
    (∀ k' e', InMemoryCache.mapGet (InMemoryCache.has c now key).1.entries k' = some e' →
      InMemoryCache.mapGet c.entries k' = some e') ∧
    (∀ e, InMemoryCache.mapGet c.entries key = some e → now > e.expiresAt →
      InMemoryCache.mapGet (InMemoryCache.has c now key).1.entries key = none) := by
  cases hm : InMemoryCache.mapGet c.entries key with
  | none =>
    refine ⟨?_, ?_, ?_, ?_, ?_⟩ <;>
      simp [InMemoryCache.has, InMemoryCache.get, hm]
  | some e =>
    have hhas : InMemoryCache.mapHas c.entries key = true := by
      simp [InMemoryCache.mapHas, hm]
    by_cases hex : now > e.expiresAt
    · have hasEq : InMemoryCache.has c now key
          = ((InMemoryCache.delete c key).1, false) := by
        simp [InMemoryCache.has, hm, hex]
      have hdel : (InMemoryCache.delete c key).1.entries
          = InMemoryCache.mapDelete c.entries key := by
        simp [InMemoryCache.delete, hhas]
      have hstats : (InMemoryCache.delete c key).1.stats.hits = c.stats.hits ∧
          (InMemoryCache.delete c key).1.stats.misses = c.stats.misses := by
        simp [InMemoryCache.delete, hhas]
      refine ⟨?_, ?_, ?_, ?_, ?_⟩
      · simp [hasEq, InMemoryCache.get, hm, hex]
      · simp [hasEq, hstats.1]
      · simp [hasEq, hstats.2]
      · intro k' e' h'
        rw [hasEq] at h'
        simp only [hdel, mapGet_mapDelete] at h'
        by_cases hk : k' = key
        · rw [if_pos hk] at h'
          exact absurd h' (by simp)
        · rw [if_neg hk] at h'
          exact h'
      · intro e0 _ _
        rw [hasEq]
        simp only [hdel, mapGet_mapDelete]
        simp
    · have hasEq : InMemoryCache.has c now key = (c, true) := by
        simp [InMemoryCache.has, hm, hex]
      refine ⟨?_, ?_, ?_, ?_, ?_⟩
      · simp [hasEq, InMemoryCache.get, hm, hex]
      · simp [hasEq]
      · simp [hasEq]
      · intro k' e' h'
        rw [hasEq] at h'
        exact h'
      · intro e0 he0 hexp
        injection he0 with he0
        exact absurd (he0 ▸ hexp) hex

/-- C9 witness — the theorem applied to the boundary store strictly after
expiry: `has` mirrors `get` (both absent) and the lazy removal happened. -/
theorem C9_has_mirrors_get_witness :
    (InMemoryCache.has boundaryStore 101 "k").2
      = ((InMemoryCache.get boundaryStore 101 "k").2).isSome ∧
    (InMemoryCache.has boundaryStore 101 "k").1.stats.hits = boundaryStore.stats.hits ∧
    InMemoryCache.mapGet (InMemoryCache.has boundaryStore 101 "k").1.entries "k" = none := by
  have h := C9_has_mirrors_get_without_bookkeeping boundaryStore 101 "k"
  refine ⟨h.1, h.2.1, ?_⟩
  exact h.2.2.2.2
    { value := 5, createdAt := 0, expiresAt := 100, accessCount := 0, lastAccessedAt := 0 }
    (by decide) (by decide)

/-- The loop invariant of `cleanupExpired`: as long as every key of the
iteration snapshot is still present in the store and the snapshot's keys
are distinct (always true of a `Map` snapshot), each expired entry's removal
goes through `delete` and bumps `deletes` once, so `deletes` grows by
exactly the returned count. -/
theorem cleanupGo_deletes {T : Type} (now : Nat) :
    ∀ (l : List (String × CacheEntry T)) (st : InMemoryCache T),
      (∀ p ∈ l, InMemoryCache.mapHas st.entries p.1 = true) →
      (l.map Prod.fst).Nodup →
      (InMemoryCache.cleanupGo now st l).1.stats.deletes
        = st.stats.deletes + (InMemoryCache.cleanupGo now st l).2 := by
  intro l
  induction l with
  | nil =>
    intro st _ _
    simp [InMemoryCache.cleanupGo]
  | cons p rest ih =>
    intro st hpres hnd
    obtain ⟨k, e⟩ := p
    simp only [InMemoryCache.cleanupGo]
    by_cases hx : now > e.expiresAt
    · rw [if_pos hx]
      have hk : InMemoryCache.mapHas st.entries k = true := hpres (k, e) (by simp)
      have hdel1 : (InMemoryCache.delete st k).1.stats.deletes = st.stats.deletes + 1 := by
        simp [InMemoryCache.delete, hk]
      have hdel2 : (InMemoryCache.delete st k).1.entries
          = InMemoryCache.mapDelete st.entries k := by
        simp [InMemoryCache.delete, hk]
      have hpres' : ∀ q ∈ rest,
          InMemoryCache.mapHas (InMemoryCache.delete st k).1.entries q.1 = true := by
        intro q hq
        have hq1 : InMemoryCache.mapHas st.entries q.1 = true :=
          hpres q (List.mem_cons_of_mem _ hq)
        have hne : q.1 ≠ k := by
          intro he
          have hkmem : k ∈ rest.map Prod.fst := by
            rw [← he]
            exact List.mem_map_of_mem Prod.fst hq
          simp only [List.map_cons, List.nodup_cons] at hnd
          exact hnd.1 hkmem
        rw [hdel2]
        simp only [InMemoryCache.mapHas, mapGet_mapDelete, if_neg hne]
        simpa [InMemoryCache.mapHas] using hq1
      have hnd' : (rest.map Prod.fst).Nodup := by
        simp only [List.map_cons, List.nodup_cons] at hnd
        exact hnd.2
      have hrec := ih (InMemoryCache.delete st k).1 hpres' hnd'
      simp only []
      omega
    · rw [if_neg hx]
      exact ih st (fun q hq => hpres q (List.mem_cons_of_mem _ hq))
        (by simp only [List.map_cons, List.nodup_cons] at hnd; exact hnd.2)

/-- C10 — a `get` or `has` that finds an expired entry removes it through
`delete`, so `deletes` grows by 1 (and `misses` by 1 for `get`); and
`cleanupExpired` likewise grows `deletes` by exactly the number of entries
it sweeps.  `deletes` therefore counts lazy-expiry and sweep removals on
top of caller-issued deletes. -/
theorem C10_lazy_expiry_routes_through_delete {T : Type} :
    (∀ (c : InMemoryCache T) (now : Nat) (key : String) (e : CacheEntry T),
      InMemoryCache.mapGet c.entries key = some e → now > e.expiresAt →
      (InMemoryCache.get c now key).1.stats.deletes = c.stats.deletes + 1 ∧
      (InMemoryCache.get c now key).1.stats.misses = c.stats.misses + 1 ∧
      (InMemoryCache.has c now key).1.stats.deletes = c.stats.deletes + 1) ∧
    (∀ (c : InMemoryCache T) (now : Nat),
      (c.entries.map Prod.fst).Nodup →
      (InMemoryCache.cleanupExpired c now).1.stats.deletes
        = c.stats.deletes + (InMemoryCache.cleanupExpired c now).2) := by
  constructor
  · intro c now key e hm hx
    have hk : InMemoryCache.mapHas c.entries key = true := by
      simp [InMemoryCache.mapHas, hm]
    refine ⟨?_, ?_, ?_⟩ <;>
      simp [InMemoryCache.get, InMemoryCache.has, InMemoryCache.delete, hm, hx, hk]
  · intro c now hnd
    exact cleanupGo_deletes now c.entries c (fun p hp => mem_mapHas c.entries p hp) hnd

/-- A store with two entries inserted at time 0 with a 100ms TTL, both
expired by time 200. -/
def twoExpiredStore : InMemoryCache Nat :=
  InMemoryCache.set (InMemoryCache.set (InMemoryCache.new Nat cfgTTL100) 0 "a" 1 none)
    0 "b" 2 none

/-- C10 witness — the theorem applied to an expired `get` and to a sweep of
two expired entries. -/
theorem C10_lazy_expiry_witness :
    (InMemoryCache.get boundaryStore 101 "k").1.stats.deletes
      = boundaryStore.stats.deletes + 1 ∧
    (InMemoryCache.cleanupExpired twoExpiredStore 200).1.stats.deletes
      = twoExpiredStore.stats.deletes + (InMemoryCache.cleanupExpired twoExpiredStore 200).2 := by
  refine ⟨?_, ?_⟩
  · exact (C10_lazy_expiry_routes_through_delete.1 boundaryStore 101 "k"
      { value := 5, createdAt := 0, expiresAt := 100, accessCount := 0, lastAccessedAt := 0 }
      (by decide) (by decide)).1
  · exact C10_lazy_expiry_routes_through_delete.2 twoExpiredStore 200 (by decide)

/-! ## Sorting preserves circularity (for C6) -/

theorem hasCycO_insertPair (k : String) (v : JValue) :
    ∀ t : JObj, hasCycO (insertPair k v t) = (hasCycV v || hasCycO t)
  | .nil => by simp [insertPair, hasCycO]
  | .cons k' v' t' => by
    simp only [insertPair]
    split
    · simp [hasCycO]
    · simp only [hasCycO, hasCycO_insertPair k v t']
      cases hasCycV v <;> cases hasCycV v' <;> cases hasCycO t' <;> rfl

theorem hasCycO_sortPairs : ∀ o : JObj, hasCycO (sortPairs o) = hasCycO o
  | .nil => rfl
  | .cons k v t => by simp [sortPairs, hasCycO, hasCycO_insertPair, hasCycO_sortPairs t]

mutual

theorem hasCyc_sortV : ∀ v : JValue, hasCycV (sortObject v) = hasCycV v
  | .null | .bool _ | .num _ | .str _ | .cyclic => rfl
  | .arr l => by simp [sortObject, hasCycV, hasCyc_sortL l]
  | .obj o => by simp [sortObject, hasCycV, hasCycO_sortPairs, hasCyc_sortO o]

theorem hasCyc_sortL : ∀ l : JList, hasCycL (sortList l) = hasCycL l
  | .nil => rfl
  | .cons v t => by simp [sortList, hasCycL, hasCyc_sortV v, hasCyc_sortL t]

theorem hasCyc_sortO : ∀ o : JObj, hasCycO (sortVals o) = hasCycO o
  | .nil => rfl
  | .cons k v t => by simp [sortVals, hasCycO, hasCyc_sortV v, hasCyc_sortO t]

end

/-- Keys agree exactly when the sorted bags agree (shared helper: the
injectivity of the canonical serialization, lifted to `generateKey`). -/
theorem generateKey_eq_iff_sorted (p q : JObj)
    (hp : hasCycO p = false) (hq : hasCycO q = false) :
    (CacheKeyGenerator.generateKey p = CacheKeyGenerator.generateKey q ↔
      sortObject (.obj p) = sortObject (.obj q)) := by
  have hp' : hasCycV (sortObject (.obj p)) = false := by
    rw [hasCyc_sortV]
    simpa [hasCycV] using hp
  have hq' : hasCycV (sortObject (.obj q)) = false := by
    rw [hasCyc_sortV]
    simpa [hasCycV] using hq
  unfold CacheKeyGenerator.generateKey JSONstringify
  rw [if_neg (by simp [hp']), if_neg (by simp [hq'])]
  simp only [sha256hex, Except.ok.injEq]
  constructor
  · intro h
    exact strV_inj hp' hq' (congrArg String.data h)
  · intro h
    rw [h]

/-- C6 — two cycle-free parameter bags generate the same key exactly when
they are deeply equal after recursive key-sorting (array order preserved):
the forward half is the claim's determinism guarantee, the contrapositive of
the backward half is the claim that any difference surviving sorting —
nested scalar values, present keys, array order or content — yields a
different canonical serialization and hence a different key. -/
theorem C6_generateKey_iff_sorted (p q : JObj)
    (hp : hasCycO p = false) (hq : hasCycO q = false) :
    (CacheKeyGenerator.generateKey p = CacheKeyGenerator.generateKey q ↔
      sortObject (.obj p) = sortObject (.obj q)) :=
  generateKey_eq_iff_sorted p q hp hq

/-- The spec's own key-determinism examples, as parameter bags. -/
def bagAB : JObj := .cons "a" (.num 1) (.cons "b" (.num 2) .nil)

/-- The same two properties in the opposite order. -/
def bagBA : JObj := .cons "b" (.num 2) (.cons "a" (.num 1) .nil)

/-- The bag with a two-element array. -/
def bag12 : JObj := .cons "a" (.arr (.cons (.num 1) (.cons (.num 2) .nil))) .nil

/-- The same bag with the array reversed. -/
def bag21 : JObj := .cons "a" (.arr (.cons (.num 2) (.cons (.num 1) .nil))) .nil

/-- C6 witness — the theorem applied to the spec's examples:
`generateKey({a:1,b:2}) = generateKey({b:2,a:1})` and
`generateKey({a:[1,2]}) ≠ generateKey({a:[2,1]})`. -/
theorem C6_generateKey_iff_sorted_witness :
    CacheKeyGenerator.generateKey bagAB = CacheKeyGenerator.generateKey bagBA ∧
    CacheKeyGenerator.generateKey bag12 ≠ CacheKeyGenerator.generateKey bag21 := by
  constructor
  · exact (C6_generateKey_iff_sorted bagAB bagBA (by decide) (by decide)).mpr (by decide)
  · intro h
    have hs := (C6_generateKey_iff_sorted bag12 bag21 (by decide) (by decide)).mp h
    exact absurd hs (by decide)

/-! ## Field-operation lemmas (for C5) -/

/-- Are the object's keys pairwise distinct (always true of a JavaScript
object)? -/
def keysNodup : JObj → Bool
  | .nil => true
  | .cons k _ t => !keyMem k t && keysNodup t

/-- Concatenation of message lists. -/
def appendL : JList → JList → JList
  | .nil, b => b
  | .cons v t, b => .cons v (appendL t b)

theorem getF_deleteF_self (k : String) : ∀ o : JObj, getF (deleteF k o) k = none
  | .nil => rfl
  | .cons k' v t => by
    simp only [deleteF]
    split
    · exact getF_deleteF_self k t
    · next h =>
      simp only [getF, if_neg h]
      exact getF_deleteF_self k t

theorem getF_deleteF_ne {k k' : String} (h : k' ≠ k) :
    ∀ o : JObj, getF (deleteF k o) k' = getF o k'
  | .nil => rfl
  | .cons k0 v t => by
    simp only [deleteF]
    split
    · next h0 =>
      rw [getF_deleteF_ne h t, getF, if_neg (by rw [h0]; exact fun he => h he.symm)]
    · simp only [getF, getF_deleteF_ne h t]

theorem keyMem_deleteF_ne {k k' : String} (h : k' ≠ k) :
    ∀ o : JObj, keyMem k' (deleteF k o) = keyMem k' o
  | .nil => rfl
  | .cons k0 v t => by
    simp only [deleteF]
    split
    · next h0 =>
      rw [keyMem_deleteF_ne h t, keyMem, beq_eq_false_iff_ne.mpr (by rw [h0]; exact Ne.symm h),
        Bool.false_or]
    · simp only [keyMem, keyMem_deleteF_ne h t]

theorem keyMem_deleteF_self (k : String) : ∀ o : JObj, keyMem k (deleteF k o) = false
  | .nil => rfl
  | .cons k0 v t => by
    simp only [deleteF]
    split
    · exact keyMem_deleteF_self k t
    · next h0 =>
      rw [keyMem, beq_eq_false_iff_ne.mpr h0, Bool.false_or]
      exact keyMem_deleteF_self k t

theorem keysNodup_deleteF (k : String) :
    ∀ o : JObj, keysNodup o = true → keysNodup (deleteF k o) = true
  | .nil => fun _ => rfl
  | .cons k0 v t => by
    intro h
    simp only [keysNodup, Bool.and_eq_true, Bool.not_eq_true'] at h
    simp only [deleteF]
    split
    · exact keysNodup_deleteF k t h.2
    · next h0 =>
      simp only [keysNodup, Bool.and_eq_true, Bool.not_eq_true']
      refine ⟨?_, keysNodup_deleteF k t h.2⟩
      rw [keyMem_deleteF_ne h0 t]
      exact h.1

theorem getF_some_keyMem {k : String} {v : JValue} :
    ∀ o : JObj, getF o k = some v → keyMem k o = true
  | .nil => by simp [getF]
  | .cons k0 v0 t => by
    intro h
    simp only [getF] at h
    by_cases h0 : k0 = k
    · simp [keyMem, h0]
    · rw [if_neg h0] at h
      simp only [keyMem, getF_some_keyMem t h, Bool.or_true]

theorem getF_replaceF_self {k : String} (w : JValue) :
    ∀ o : JObj, keyMem k o = true → getF (replaceF k w o) k = some w
  | .nil => by simp [keyMem]
  | .cons k0 v0 t => by
    intro h
    simp only [replaceF]
    by_cases h0 : k0 = k
    · rw [if_pos h0, getF, if_pos h0]
    · rw [if_neg h0, getF, if_neg h0]
      simp only [keyMem, beq_eq_false_iff_ne.mpr h0, Bool.false_or] at h
      exact getF_replaceF_self w t h

theorem getF_replaceF_ne {k k' : String} (w : JValue) (h : k' ≠ k) :
    ∀ o : JObj, getF (replaceF k w o) k' = getF o k'
  | .nil => rfl
  | .cons k0 v0 t => by
    simp only [replaceF]
    by_cases h0 : k0 = k
    · rw [if_pos h0, getF, getF, if_neg (by rw [h0]; exact fun he => h he.symm),
        if_neg (by rw [h0]; exact fun he => h he.symm)]
      exact getF_replaceF_ne w h t
    · rw [if_neg h0]
      simp only [getF, getF_replaceF_ne w h t]

theorem keyMem_replaceF (k k' : String) (w : JValue) :
    ∀ o : JObj, keyMem k' (replaceF k w o) = keyMem k' o
  | .nil => rfl
  | .cons k0 v0 t => by
    simp only [replaceF]
    split
    · simp only [keyMem, keyMem_replaceF k k' w t]
    · simp only [keyMem, keyMem_replaceF k k' w t]

theorem keysNodup_replaceF (k : String) (w : JValue) :
    ∀ o : JObj, keysNodup (replaceF k w o) = keysNodup o
  | .nil => rfl
  | .cons k0 v0 t => by
    simp only [replaceF]
    split
    · simp only [keysNodup, keyMem_replaceF, keysNodup_replaceF k w t]
    · simp only [keysNodup, keyMem_replaceF, keysNodup_replaceF k w t]

theorem getF_setField_self {k : String} (w : JValue) (o : JObj) (h : keyMem k o = true) :
    getF (setField k w o) k = some w := by
  rw [setField, if_pos h]
  exact getF_replaceF_self w o h

theorem keysNodup_setField {k : String} (w : JValue) (o : JObj) (h : keyMem k o = true) :
    keysNodup (setField k w o) = keysNodup o := by
  rw [setField, if_pos h]
  exact keysNodup_replaceF k w o

/-! ## Circularity-preservation and sorting lemmas (for C5) -/

theorem hasCycO_deleteF (k : String) :
    ∀ o : JObj, hasCycO o = false → hasCycO (deleteF k o) = false
  | .nil => fun _ => rfl
  | .cons k0 v t => by
    intro h
    simp only [hasCycO, Bool.or_eq_false_iff] at h
    simp only [deleteF]
    split
    · exact hasCycO_deleteF k t h.2
    · simp only [hasCycO, Bool.or_eq_false_iff]
      exact ⟨h.1, hasCycO_deleteF k t h.2⟩

theorem hasCycV_getF {k : String} {v : JValue} :
    ∀ o : JObj, hasCycO o = false → getF o k = some v → hasCycV v = false
  | .nil => by simp [getF]
  | .cons k0 v0 t => by
    intro h hg
    simp only [hasCycO, Bool.or_eq_false_iff] at h
    simp only [getF] at hg
    by_cases h0 : k0 = k
    · rw [if_pos h0] at hg
      injection hg with hg
      exact hg ▸ h.1
    · rw [if_neg h0] at hg
      exact hasCycV_getF t h.2 hg

theorem hasCycO_replaceF {k : String} {w : JValue} (hw : hasCycV w = false) :
    ∀ o : JObj, hasCycO o = false → hasCycO (replaceF k w o) = false
  | .nil => fun _ => rfl
  | .cons k0 v0 t => by
    intro h
    simp only [hasCycO, Bool.or_eq_false_iff] at h
    simp only [replaceF]
    split
    · simp only [hasCycO, Bool.or_eq_false_iff]
      exact ⟨hw, hasCycO_replaceF hw t h.2⟩
    · simp only [hasCycO, Bool.or_eq_false_iff]
      exact ⟨h.1, hasCycO_replaceF hw t h.2⟩

theorem hasCycO_snocO {k : String} {w : JValue} (hw : hasCycV w = false) :
    ∀ o : JObj, hasCycO o = false → hasCycO (snocO o k w) = false
  | .nil => by
    intro h
    simp [snocO, hasCycO, hw]
  | .cons k0 v0 t => by
    intro h
    simp only [hasCycO, Bool.or_eq_false_iff] at h
    simp only [snocO, hasCycO, Bool.or_eq_false_iff]
    exact ⟨h.1, hasCycO_snocO hw t h.2⟩

theorem hasCycO_setField {k : String} {w : JValue} (hw : hasCycV w = false)
    (o : JObj) (h : hasCycO o = false) : hasCycO (setField k w o) = false := by
  rw [setField]
  split
  · exact hasCycO_replaceF hw o h
  · exact hasCycO_snocO hw o h

theorem hasCycO_consIfPresent {k : String} {mv : Option JValue} {t : JObj}
    (hv : ∀ v, mv = some v → hasCycV v = false) (ht : hasCycO t = false) :
    hasCycO (consIfPresent k mv t) = false := by
  cases mv with
  | none => exact ht
  | some v =>
    simp only [consIfPresent, hasCycO, Bool.or_eq_false_iff]
    exact ⟨hv v rfl, ht⟩

theorem hasCycO_consIfTruthy {k : String} {mv : Option JValue} {t : JObj}
    (hv : ∀ v, mv = some v → hasCycV v = false) (ht : hasCycO t = false) :
    hasCycO (consIfTruthy k mv t) = false := by
  cases mv with
  | none => exact ht
  | some v =>
    simp only [consIfTruthy]
    split
    · simp only [hasCycO, Bool.or_eq_false_iff]
      exact ⟨hv v rfl, ht⟩
    · exact ht

theorem hasCycV_normalizeMessage {m : JValue} (h : hasCycV m = false) :
    hasCycV (OpenAICacheKeyGenerator.normalizeMessage m) = false := by
  cases m with
  | obj o =>
    have ho : hasCycO o = false := by simpa [hasCycV] using h
    show hasCycO _ = false
    refine hasCycO_consIfPresent (fun v hv => hasCycV_getF o ho hv) ?_
    refine hasCycO_consIfPresent (fun v hv => hasCycV_getF o ho hv) ?_
    refine hasCycO_consIfTruthy (fun v hv => hasCycV_getF o ho hv) ?_
    refine hasCycO_consIfTruthy (fun v hv => hasCycV_getF o ho hv) ?_
    exact hasCycO_consIfTruthy (fun v hv => hasCycV_getF o ho hv) rfl
  | null => rfl
  | bool b => rfl
  | num n => rfl
  | str s => rfl
  | arr l => rfl
  | cyclic => rfl

theorem hasCycL_normalizeMessages :
    ∀ l : JList, hasCycL l = false →
      hasCycL (OpenAICacheKeyGenerator.normalizeMessages l) = false
  | .nil => fun _ => rfl
  | .cons m t => by
    intro h
    simp only [hasCycL, Bool.or_eq_false_iff] at h
    simp only [OpenAICacheKeyGenerator.normalizeMessages, hasCycL, Bool.or_eq_false_iff]
    exact ⟨hasCycV_normalizeMessage h.1, hasCycL_normalizeMessages t h.2⟩

theorem getF_sortVals (k : String) :
    ∀ o : JObj, getF (sortVals o) k = (getF o k).map sortObject
  | .nil => rfl
  | .cons k0 v t => by
    simp only [sortVals, getF]
    split
    · rfl
    · exact getF_sortVals k t

theorem keyMem_sortVals (k : String) : ∀ o : JObj, keyMem k (sortVals o) = keyMem k o
  | .nil => rfl
  | .cons k0 v t => by
    simp only [sortVals, keyMem, keyMem_sortVals k t]

theorem keysNodup_sortVals : ∀ o : JObj, keysNodup (sortVals o) = keysNodup o
  | .nil => rfl
  | .cons k0 v t => by
    simp only [sortVals, keysNodup, keyMem_sortVals, keysNodup_sortVals t]

theorem keyMem_insertPair (k k0 : String) (v : JValue) :
    ∀ t : JObj, keyMem k (insertPair k0 v t) = ((k0 == k) || keyMem k t)
  | .nil => by simp [insertPair, keyMem]
  | .cons k1 v1 t1 => by
    simp only [insertPair]
    split
    · simp [keyMem]
    · simp only [keyMem, keyMem_insertPair k k0 v t1]
      cases k1 == k <;> cases k0 == k <;> simp

theorem keyMem_sortPairs (k : String) : ∀ o : JObj, keyMem k (sortPairs o) = keyMem k o
  | .nil => rfl
  | .cons k0 v t => by
    simp only [sortPairs, keyMem_insertPair, keyMem, keyMem_sortPairs k t]

theorem getF_insertPair_ne {k k0 : String} (v : JValue) (h : k0 ≠ k) :
    ∀ t : JObj, getF (insertPair k0 v t) k = getF t k
  | .nil => by simp [insertPair, getF, h]
  | .cons k1 v1 t1 => by
    simp only [insertPair]
    split
    · simp only [getF, if_neg h]
    · simp only [getF, getF_insertPair_ne v h t1]

theorem getF_insertPair_self {k : String} (v : JValue) :
    ∀ t : JObj, keyMem k t = false → getF (insertPair k v t) k = some v
  | .nil => by simp [insertPair, getF]
  | .cons k1 v1 t1 => by
    intro h
    simp only [keyMem, Bool.or_eq_false_iff] at h
    simp only [insertPair]
    split
    · simp [getF]
    · have h1 : ¬ k1 = k := by
        intro he
        rw [he] at h
        simp at h
      simp only [getF, if_neg h1]
      exact getF_insertPair_self v t1 h.2

theorem getF_sortPairs (k : String) :
    ∀ o : JObj, keysNodup o = true → getF (sortPairs o) k = getF o k
  | .nil => fun _ => rfl
  | .cons k0 v t => by
    intro h
    simp only [keysNodup, Bool.and_eq_true, Bool.not_eq_true'] at h
    simp only [sortPairs, getF]
    by_cases h0 : k0 = k
    · rw [if_pos h0]
      subst h0
      apply getF_insertPair_self
      rw [keyMem_sortPairs]
      exact h.1
    · rw [if_neg h0, getF_insertPair_ne v h0 (sortPairs t)]
      exact getF_sortPairs k t h.2

theorem normalizeMessages_appendL :
    ∀ a b : JList,
      OpenAICacheKeyGenerator.normalizeMessages (appendL a b)
        = appendL (OpenAICacheKeyGenerator.normalizeMessages a)
            (OpenAICacheKeyGenerator.normalizeMessages b)
  | .nil, b => rfl
  | .cons v t, b => by
    simp [appendL, OpenAICacheKeyGenerator.normalizeMessages, normalizeMessages_appendL t b]

theorem sortList_appendL :
    ∀ a b : JList, sortList (appendL a b) = appendL (sortList a) (sortList b)
  | .nil, b => rfl
  | .cons v t, b => by
    simp [appendL, sortList, sortList_appendL t b]

theorem appendL_cancel : ∀ a b c : JList, appendL a b = appendL a c → b = c
  | .nil, _, _ => fun h => h
  | .cons v t, b, c => by
    intro h
    simp only [appendL, JList.cons.injEq] at h
    exact appendL_cancel t b c h.2

/-! ## Normalized-message key membership (for C5) -/

theorem keyMem_consIfPresent_ne {k k' : String} (h : k' ≠ k) (mv : Option JValue) (t : JObj) :
    keyMem k (consIfPresent k' mv t) = keyMem k t := by
  cases mv with
  | none => rfl
  | some v => simp [consIfPresent, keyMem, beq_eq_false_iff_ne.mpr h]

theorem keyMem_consIfTruthy_ne {k k' : String} (h : k' ≠ k) (mv : Option JValue) (t : JObj) :
    keyMem k (consIfTruthy k' mv t) = keyMem k t := by
  cases mv with
  | none => rfl
  | some v =>
    simp only [consIfTruthy]
    split
    · simp [keyMem, beq_eq_false_iff_ne.mpr h]
    · rfl

/-- Lookup `getF` at `"messages"` is unaffected by the three deletions. -/
theorem getF_strip3_messages (p : JObj) :
    getF (deleteF "logprobs" (deleteF "user" (deleteF "stream" p))) "messages"
      = getF p "messages" := by
  rw [getF_deleteF_ne (by decide), getF_deleteF_ne (by decide), getF_deleteF_ne (by decide)]

/-- Reduction of the specialized generator when the stripped bag carries an
array-valued `messages` field. -/
theorem openaiKey_eq (p : JObj) (ms : JList)
    (h : getF (deleteF "logprobs" (deleteF "user" (deleteF "stream" p))) "messages"
        = some (.arr ms)) :
    OpenAICacheKeyGenerator.generateKey p
      = CacheKeyGenerator.generateKey
          (setField "messages" (.arr (OpenAICacheKeyGenerator.normalizeMessages ms))
            (deleteF "logprobs" (deleteF "user" (deleteF "stream" p)))) := by
  simp only [OpenAICacheKeyGenerator.generateKey]
  rw [h]
  simp [truthy]

theorem consIfTruthy_none (k : String) (t : JObj) : consIfTruthy k none t = t := rfl

/-- A normalized message built from a bag that carries an array-valued
`tool_calls` field keeps the `tool_calls` key. -/
theorem keyMem_tc_normMsg_present {o : JObj} {ts : JList}
    (hot : getF o "tool_calls" = some (.arr ts)) :
    keyMem "tool_calls" (consIfPresent "role" (getF o "role")
      (consIfPresent "content" (getF o "content")
        (consIfTruthy "function_call" (getF o "function_call")
          (consIfTruthy "tool_calls" (getF o "tool_calls")
            (consIfTruthy "name" (getF o "name") .nil))))) = true := by
  rw [keyMem_consIfPresent_ne (by decide), keyMem_consIfPresent_ne (by decide),
    keyMem_consIfTruthy_ne (by decide), hot]
  simp [consIfTruthy, truthy, keyMem]

/-- A normalized message built from a bag with no `tool_calls` field lacks
the `tool_calls` key. -/
theorem keyMem_tc_normMsg_absent {o : JObj}
    (hno : getF o "tool_calls" = none) :
    keyMem "tool_calls" (consIfPresent "role" (getF o "role")
      (consIfPresent "content" (getF o "content")
        (consIfTruthy "function_call" (getF o "function_call")
          (consIfTruthy "tool_calls" (getF o "tool_calls")
            (consIfTruthy "name" (getF o "name") .nil))))) = false := by
  rw [keyMem_consIfPresent_ne (by decide), keyMem_consIfPresent_ne (by decide),
    keyMem_consIfTruthy_ne (by decide), hno, consIfTruthy_none,
    keyMem_consIfTruthy_ne (by decide)]
  rfl

/-- C5 — the specialized chat key generator (i) produces the same key for
any two bags whose `stream`/`user`/`logprobs`-stripped forms coincide (in
particular, bags differing only in those fields), because each message is
normalized to role, content and the present call/name fields before
hashing; and (ii) produces different keys for bags that are identical
except that, in one message, a (chat-style, array-valued) `tool_calls`
field is present in one bag and absent in the other. -/
theorem C5_domain_normalization :
    (∀ p q : JObj,
      deleteF "logprobs" (deleteF "user" (deleteF "stream" p))
        = deleteF "logprobs" (deleteF "user" (deleteF "stream" q)) →
      OpenAICacheKeyGenerator.generateKey p = OpenAICacheKeyGenerator.generateKey q) ∧
    (∀ (p q : JObj) (pre suf : JList) (o₁ : JObj) (ts : JList),
      hasCycO p = false → hasCycO q = false →
      keysNodup p = true → keysNodup q = true →
      getF p "messages" = some (.arr (appendL pre (.cons (.obj o₁) suf))) →
      getF q "messages"
        = some (.arr (appendL pre (.cons (.obj (deleteF "tool_calls" o₁)) suf))) →
      getF o₁ "tool_calls" = some (.arr ts) →
      OpenAICacheKeyGenerator.generateKey p ≠ OpenAICacheKeyGenerator.generateKey q) := by
  constructor
  · intro p q h
    simp only [OpenAICacheKeyGenerator.generateKey]
    rw [h]
  · intro p q pre suf o₁ ts hp hq hnp hnq hpm hqm hot hkeys
    have hpm' : getF (deleteF "logprobs" (deleteF "user" (deleteF "stream" p))) "messages"
        = some (.arr (appendL pre (.cons (.obj o₁) suf))) := by
      rw [getF_strip3_messages]; exact hpm
    have hqm' : getF (deleteF "logprobs" (deleteF "user" (deleteF "stream" q))) "messages"
        = some (.arr (appendL pre (.cons (.obj (deleteF "tool_calls" o₁)) suf))) := by
      rw [getF_strip3_messages]; exact hqm
    rw [openaiKey_eq p _ hpm', openaiKey_eq q _ hqm'] at hkeys
    -- circularity-freedom of the final bags
    have hp3 : hasCycO (deleteF "logprobs" (deleteF "user" (deleteF "stream" p))) = false :=
      hasCycO_deleteF _ _ (hasCycO_deleteF _ _ (hasCycO_deleteF _ _ hp))
    have hq3 : hasCycO (deleteF "logprobs" (deleteF "user" (deleteF "stream" q))) = false :=
      hasCycO_deleteF _ _ (hasCycO_deleteF _ _ (hasCycO_deleteF _ _ hq))
    have hms1 : hasCycL (appendL pre (.cons (.obj o₁) suf)) = false := by
      have := hasCycV_getF _ hp3 hpm'
      simpa [hasCycV] using this
    have hms2 : hasCycL (appendL pre (.cons (.obj (deleteF "tool_calls" o₁)) suf)) = false := by
      have := hasCycV_getF _ hq3 hqm'
      simpa [hasCycV] using this
    have hn1 : hasCycV (.arr (OpenAICacheKeyGenerator.normalizeMessages
        (appendL pre (.cons (.obj o₁) suf)))) = false := by
      simpa [hasCycV] using hasCycL_normalizeMessages _ hms1
    have hn2 : hasCycV (.arr (OpenAICacheKeyGenerator.normalizeMessages
        (appendL pre (.cons (.obj (deleteF "tool_calls" o₁)) suf)))) = false := by
      simpa [hasCycV] using hasCycL_normalizeMessages _ hms2
    have hPc : hasCycO (setField "messages"
        (.arr (OpenAICacheKeyGenerator.normalizeMessages (appendL pre (.cons (.obj o₁) suf))))
        (deleteF "logprobs" (deleteF "user" (deleteF "stream" p)))) = false :=
      hasCycO_setField hn1 _ hp3
    have hQc : hasCycO (setField "messages"
        (.arr (OpenAICacheKeyGenerator.normalizeMessages
          (appendL pre (.cons (.obj (deleteF "tool_calls" o₁)) suf))))
        (deleteF "logprobs" (deleteF "user" (deleteF "stream" q)))) = false :=
      hasCycO_setField hn2 _ hq3
    -- key distinctness of the final bags
    have hkmp : keyMem "messages" (deleteF "logprobs" (deleteF "user" (deleteF "stream" p)))
        = true := getF_some_keyMem _ hpm'
    have hkmq : keyMem "messages" (deleteF "logprobs" (deleteF "user" (deleteF "stream" q)))
        = true := getF_some_keyMem _ hqm'
    have hnp3 : keysNodup (deleteF "logprobs" (deleteF "user" (deleteF "stream" p))) = true :=
      keysNodup_deleteF _ _ (keysNodup_deleteF _ _ (keysNodup_deleteF _ _ hnp))
    have hnq3 : keysNodup (deleteF "logprobs" (deleteF "user" (deleteF "stream" q))) = true :=
      keysNodup_deleteF _ _ (keysNodup_deleteF _ _ (keysNodup_deleteF _ _ hnq))
    have hnP : keysNodup (setField "messages"
        (.arr (OpenAICacheKeyGenerator.normalizeMessages (appendL pre (.cons (.obj o₁) suf))))
        (deleteF "logprobs" (deleteF "user" (deleteF "stream" p)))) = true := by
      rw [keysNodup_setField _ _ hkmp]; exact hnp3
    have hnQ : keysNodup (setField "messages"
        (.arr (OpenAICacheKeyGenerator.normalizeMessages
          (appendL pre (.cons (.obj (deleteF "tool_calls" o₁)) suf))))
        (deleteF "logprobs" (deleteF "user" (deleteF "stream" q)))) = true := by
      rw [keysNodup_setField _ _ hkmq]; exact hnq3
    -- from equal keys to equal sorted bags
    have hsort := (generateKey_eq_iff_sorted _ _ hPc hQc).mp hkeys
    have hpairs : sortPairs (sortVals (setField "messages"
          (.arr (OpenAICacheKeyGenerator.normalizeMessages (appendL pre (.cons (.obj o₁) suf))))
          (deleteF "logprobs" (deleteF "user" (deleteF "stream" p)))))
        = sortPairs (sortVals (setField "messages"
          (.arr (OpenAICacheKeyGenerator.normalizeMessages
            (appendL pre (.cons (.obj (deleteF "tool_calls" o₁)) suf))))
          (deleteF "logprobs" (deleteF "user" (deleteF "stream" q))))) := by
      simpa [sortObject] using hsort
    -- compare the messages field of the sorted bags
    have hf1 : getF (sortPairs (sortVals (setField "messages"
          (.arr (OpenAICacheKeyGenerator.normalizeMessages (appendL pre (.cons (.obj o₁) suf))))
          (deleteF "logprobs" (deleteF "user" (deleteF "stream" p)))))) "messages"
        = (getF (setField "messages"
            (.arr (OpenAICacheKeyGenerator.normalizeMessages (appendL pre (.cons (.obj o₁) suf))))
            (deleteF "logprobs" (deleteF "user" (deleteF "stream" p)))) "messages").map sortObject := by
      rw [getF_sortPairs _ _ (by rw [keysNodup_sortVals]; exact hnP), getF_sortVals]
    have hf2 : getF (sortPairs (sortVals (setField "messages"
          (.arr (OpenAICacheKeyGenerator.normalizeMessages
            (appendL pre (.cons (.obj (deleteF "tool_calls" o₁)) suf))))
          (deleteF "logprobs" (deleteF "user" (deleteF "stream" q)))))) "messages"
        = (getF (setField "messages"
            (.arr (OpenAICacheKeyGenerator.normalizeMessages
              (appendL pre (.cons (.obj (deleteF "tool_calls" o₁)) suf))))
            (deleteF "logprobs" (deleteF "user" (deleteF "stream" q)))) "messages").map sortObject := by
      rw [getF_sortPairs _ _ (by rw [keysNodup_sortVals]; exact hnQ), getF_sortVals]
    have hmsg := hf1.symm.trans (hpairs ▸ hf2)
    rw [getF_setField_self _ _ hkmp, getF_setField_self _ _ hkmq] at hmsg
    simp only [Option.map_some', Option.some.injEq, sortObject, JValue.arr.injEq] at hmsg
    -- peel the common prefix and suffix
    rw [normalizeMessages_appendL, normalizeMessages_appendL, sortList_appendL,
      sortList_appendL] at hmsg
    have hcons := appendL_cancel _ _ _ hmsg
    simp only [OpenAICacheKeyGenerator.normalizeMessages, sortList, JList.cons.injEq] at hcons
    have hmEq := hcons.1
    -- the normalized messages agree, but disagree on the tool_calls key
    simp only [OpenAICacheKeyGenerator.normalizeMessage, sortObject, JValue.obj.injEq] at hmEq
    have hkm_eq := congrArg (keyMem "tool_calls") hmEq
    rw [keyMem_sortPairs, keyMem_sortVals, keyMem_sortPairs, keyMem_sortVals] at hkm_eq
    rw [keyMem_tc_normMsg_present hot,
      keyMem_tc_normMsg_absent (getF_deleteF_self "tool_calls" o₁)] at hkm_eq
    exact absurd hkm_eq (by decide)

/-- A chat message carrying role, content and a one-element `tool_calls`
array. -/
def msgWithTools : JObj :=
  .cons "role" (.str "user") (.cons "content" (.str "hi")
    (.cons "tool_calls" (.arr (.cons (.str "t") .nil)) .nil))

/-- A chat bag with that message and `stream: true`. -/
def chatBagStreamTrue : JObj :=
  .cons "model" (.str "m")
    (.cons "messages" (.arr (.cons (.obj msgWithTools) .nil))
      (.cons "stream" (.bool true) .nil))

/-- The same bag with `stream: false`. -/
def chatBagStreamFalse : JObj :=
  .cons "model" (.str "m")
    (.cons "messages" (.arr (.cons (.obj msgWithTools) .nil))
      (.cons "stream" (.bool false) .nil))

/-- The same conversation with the message's `tool_calls` field removed. -/
def chatBagNoTools : JObj :=
  .cons "model" (.str "m")
    (.cons "messages" (.arr (.cons (.obj (deleteF "tool_calls" msgWithTools)) .nil))
      (.cons "stream" (.bool true) .nil))

/-- C5 witness — the theorem applied to a concrete conversation: flipping
`stream` keeps the key, dropping the message's `tool_calls` changes it. -/
theorem C5_domain_normalization_witness :
    OpenAICacheKeyGenerator.generateKey chatBagStreamTrue
      = OpenAICacheKeyGenerator.generateKey chatBagStreamFalse ∧
    OpenAICacheKeyGenerator.generateKey chatBagStreamTrue
      ≠ OpenAICacheKeyGenerator.generateKey chatBagNoTools := by
  constructor
  · exact C5_domain_normalization.1 chatBagStreamTrue chatBagStreamFalse (by decide)
  · exact C5_domain_normalization.2 chatBagStreamTrue chatBagNoTools .nil .nil msgWithTools
      (.cons (.str "t") .nil) (by decide) (by decide) (by decide) (by decide)
      (by decide) (by decide) (by decide)
